import Mathlib

/-!
Verification development for the fx-pipeline repository.

The development shallowly embeds the core of the pipeline:

* `config.py` — the fixed currency set and the triangulation base;
* `etl/transform.py` — `compute_cross_pairs`, the triangulation transform;
* `etl/load.py` — the local DuckDB star-schema loader;
* `etl/load_azure.py` — the partitioned object-storage loader.

Modelling conventions:

* Python `float` rates are modelled as `ℚ`; `round(x, 6)` is modelled as
  rounding to the nearest multiple of `10⁻⁶` (`round6` below).
* Python dicts are modelled as association lists in insertion order; lookup
  is first-match, which coincides with dict lookup since dict keys are
  unique.
* Date strings of the raw input are modelled as already-parsed calendar
  dates (`FXDate`); the polars `str.to_date` conversion step identifies
  well-formed ISO `YYYY-MM-DD` strings with dates, order included.
* Fallible Python code (raising exceptions) is modelled with `Except`:
  `TfError.divByZero` models Python's `ZeroDivisionError`, and
  `TfError.emptyFrame` models the error polars raises when the record list
  is empty, so that `pl.DataFrame(records)` has no columns and the
  subsequent `pl.col("date")` resolution (and the `len(df) //
  df["date"].n_unique()` in the summary log line) fails.
-/

namespace FX

/-! ## config.py -/

/-- Fixed currency set from `config.py` (`CURRENCIES`). -/
def CURRENCIES : List String := ["NOK", "EUR", "SEK", "PLN", "RON", "DKK", "CZK"]

/-- Triangulation base from `config.py` (`BASE_CURRENCY`). -/
def BASE_CURRENCY : String := "EUR"

/-- Display names from `config.py` (`CURRENCY_NAMES`); every member of
`CURRENCIES` is a key, so the default branch is never taken on pipeline
data. -/
def currencyName (code : String) : String :=
  match code with
  | "NOK" => "Norwegian Krone"
  | "EUR" => "Euro"
  | "SEK" => "Swedish Krona"
  | "PLN" => "Polish Zloty"
  | "RON" => "Romanian Leu"
  | "DKK" => "Danish Krone"
  | "CZK" => "Czech Koruna"
  | _ => ""

/-! ## Calendar dates -/

/-- Calendar date (models Python `datetime.date` / a polars `Date` value). -/
structure FXDate where
  year : ℕ
  month : ℕ
  day : ℕ
deriving DecidableEq, Repr

/-- Lexicographic sort key of a date; calendar order on valid dates. -/
def dateKey (d : FXDate) : ℕ ×ₗ ℕ ×ₗ ℕ :=
  toLex (d.year, toLex (d.month, d.day))

/-- Days since 1970-01-01 for a civil date (standard civil-calendar
counting, as used by Python's `datetime` and polars). -/
def daysFromCivil (d : FXDate) : ℤ :=
  let y : ℤ := (d.year : ℤ) - (if d.month ≤ 2 then 1 else 0)
  let m : ℤ := (d.month : ℤ)
  let dd : ℤ := (d.day : ℤ)
  let era : ℤ := y / 400
  let yoe : ℤ := y - era * 400
  let doy : ℤ := (153 * (m + (if 2 < d.month then -3 else 9)) + 2) / 5 + dd - 1
  let doe : ℤ := yoe * 365 + yoe / 4 - yoe / 100 + doy
  era * 146097 + doe - 719468

/-- Python `date.weekday()`: Monday = 0 … Sunday = 6 (1970-01-01 was a
Thursday, weekday 3). -/
def pyWeekday (d : FXDate) : ℤ :=
  (daysFromCivil d + 3) % 7

/-- Polars `dt.weekday()`: ISO numbering, Monday = 1 … Sunday = 7. -/
def polarsWeekday (d : FXDate) : ℤ :=
  pyWeekday d + 1

/-! ## Rounding

`round(x, 6)` of `etl/transform.py`, over `ℚ`: round to the nearest
multiple of `10⁻⁶`. -/

/-- Round a rational to 6 decimal places: the nearest multiple of `10⁻⁶`,
half away from zero upward. Stated through integer division so that it
evaluates by kernel reduction; `round6_eq_round` below identifies it with
`round (q * 10⁶) / 10⁶`. -/
def round6 (q : ℚ) : ℚ :=
  (((2 * q.num * 1000000 + (q.den : ℤ)) / (2 * (q.den : ℤ)) : ℤ) : ℚ) / 1000000

/-! ## etl/transform.py -/

/-- One date's raw rate table (`rates_vs_eur`): currency code → rate, in
dict insertion order. -/
abbrev RateTable : Type := List (String × ℚ)

/-- Raw extractor output (`raw_rates`): observation date → rate table. -/
abbrev RawRates : Type := List (FXDate × List (String × ℚ))

/-- Output record of `compute_cross_pairs` (one row of the DataFrame). -/
structure Row where
  date : FXDate
  from_currency : String
  to_currency : String
  rate : ℚ
deriving DecidableEq, Repr

/-- Failure modes of `compute_cross_pairs` (Python exceptions). -/
inductive TfError where
  /-- Python `ZeroDivisionError` from `full_rates[to] / full_rates[from]`. -/
  | divByZero
  /-- Error raised when `records == []`: `pl.DataFrame([])` has no columns,
  so resolving the `date` column (and the `len(df) // n_unique` in the
  summary log) fails. -/
  | emptyFrame
deriving DecidableEq, Repr

/-- Lookup in `full_rates = {BASE_CURRENCY: 1.0, **rates_vs_eur}`: a key of
the supplied table wins (dict merge keeps the last value), and the base
currency falls back to the injected 1.0. -/
def fullLookup (t : List (String × ℚ)) (c : String) : Option ℚ :=
  match t.lookup c with
  | some v => some v
  | none => if c = BASE_CURRENCY then some 1 else none

/-- Ordered pairs drawn from `l₁` (first component) and `l₂` (second
component), skipping equal pairs. -/
def op2 (l₁ l₂ : List String) : List (String × String) :=
  l₁.flatMap fun a => ((l₂.filter fun b => b ≠ a).map fun b => (a, b))

/-- All ordered pairs of distinct elements, in the enumeration order of
`itertools.permutations(l, 2)` (for duplicate-free `l`). -/
def orderedPairs (l : List String) : List (String × String) :=
  op2 l l

/-- Body of the inner pair loop of `compute_cross_pairs`: skip the pair
(`ok none`) when either currency is absent from `full_rates`; otherwise
divide — a zero divisor raises `ZeroDivisionError` — and emit the rounded
record. -/
def buildPair (d : FXDate) (t : List (String × ℚ)) (p : String × String) :
    Except TfError (Option Row) :=
  match fullLookup t p.1, fullLookup t p.2 with
  | some ra, some rb =>
      if ra = 0 then .error .divByZero
      else .ok (some ⟨d, p.1, p.2, round6 (rb / ra)⟩)
  | _, _ => .ok none

/-- Run a skip-or-emit body over a list, propagating the first error and
collecting the emitted values in order. -/
def collectE {α β ε : Type} (f : α → Except ε (Option β)) :
    List α → Except ε (List β)
  | [] => .ok []
  | a :: l =>
      match f a with
      | .error e => .error e
      | .ok none => collectE f l
      | .ok (some b) => (collectE f l).map (b :: ·)

/-- Records contributed by one observation date: the pair loop of
`compute_cross_pairs` over `permutations(cs, 2)`. -/
def dateRecs (cs : List String) (d : FXDate) (t : List (String × ℚ)) :
    Except TfError (List Row) :=
  collectE (buildPair d t) (orderedPairs cs)

/-- Record-building loop of `compute_cross_pairs` over all dates, in input
order. -/
def recordsFor (cs : List String) : RawRates → Except TfError (List Row)
  | [] => .ok []
  | (d, t) :: rest =>
      match dateRecs cs d t with
      | .error e => .error e
      | .ok rs =>
          match recordsFor cs rest with
          | .error e => .error e
          | .ok rs' => .ok (rs ++ rs')

/-- Codepoint sequence of a string; lexicographic order on these lists is
the string order polars sorts by (for the ASCII codes in play). -/
def strKey (s : String) : List ℕ :=
  s.data.map Char.toNat

/-- Sort key of `df.sort(["date", "from_currency", "to_currency"])`. -/
def rowKey (r : Row) : (ℕ ×ₗ ℕ ×ₗ ℕ) ×ₗ (List ℕ) ×ₗ (List ℕ) :=
  toLex (dateKey r.date, toLex (strKey r.from_currency, strKey r.to_currency))

/-- Row comparison used by the final sort. -/
def rowLE (a b : Row) : Prop :=
  rowKey a ≤ rowKey b

instance : DecidableRel rowLE := fun a b =>
  inferInstanceAs (Decidable (rowKey a ≤ rowKey b))

instance : IsTotal Row rowLE :=
  ⟨fun a b => le_total (rowKey a) (rowKey b)⟩

instance : IsTrans Row rowLE :=
  ⟨fun _ _ _ h h' => le_trans h h'⟩

/-- Final sort of the transform output. -/
def sortRows (l : List Row) : List Row :=
  l.insertionSort rowLE

/-- Whole transform for an arbitrary currency list `cs` (used to state
what the output would be had a currency never been in the set). -/
def computeWith (cs : List String) (raw : RawRates) :
    Except TfError (List Row) :=
  match recordsFor cs raw with
  | .error e => .error e
  | .ok [] => .error .emptyFrame
  | .ok (r :: rs) => .ok (sortRows (r :: rs))

/-- Model of `etl/transform.py::compute_cross_pairs` over the fixed
currency set. -/
def compute_cross_pairs (raw : RawRates) : Except TfError (List Row) :=
  computeWith CURRENCIES raw

/-- Successful output of the transform (empty list when it raises); a
convenience for evaluating concrete runs. -/
def outputOf (raw : RawRates) : List Row :=
  match compute_cross_pairs raw with
  | .ok l => l
  | .error _ => []

instance {ε α : Type} [DecidableEq ε] [DecidableEq α] : DecidableEq (Except ε α)
  | .error e, .error e' =>
      if h : e = e' then .isTrue (by rw [h]) else .isFalse (fun hh => by cases hh; exact h rfl)
  | .error _, .ok _ => .isFalse (fun hh => by cases hh)
  | .ok _, .error _ => .isFalse (fun hh => by cases hh)
  | .ok a, .ok a' =>
      if h : a = a' then .isTrue (by rw [h]) else .isFalse (fun hh => by cases hh; exact h rfl)

/-! ## etl/load.py — local DuckDB sink

The warehouse state models the three tables of the star schema plus the
three id sequences. `created_at TIMESTAMP DEFAULT current_timestamp` of
`fact_fx_rates` reads the wall clock and is not modelled; no claim
mentions it. -/

/-- Row of `dim_currency`. -/
structure CurrencyRow where
  currency_id : ℕ
  currency_code : String
  currency_name : String
deriving DecidableEq, Repr

/-- Row of `dim_date`. -/
structure DateRow where
  date_id : ℕ
  full_date : FXDate
  year : ℕ
  month : ℕ
  quarter : ℕ
  day : ℕ
  is_weekend : Bool
deriving DecidableEq, Repr

/-- Row of `fact_fx_rates` (without the unmodelled `created_at`). -/
structure FactRow where
  rate_id : ℕ
  date_id : ℕ
  from_currency_id : ℕ
  to_currency_id : ℕ
  rate : ℚ
deriving DecidableEq, Repr

/-- DuckDB warehouse state: the three tables and the three sequences. The
DDL is `CREATE ... IF NOT EXISTS`, so the tables always exist in the
model and re-applying the schema is the identity. -/
structure Warehouse where
  dim_currency : List CurrencyRow
  dim_date : List DateRow
  fact : List FactRow
  seq_currency : ℕ
  seq_date : ℕ
  seq_rate : ℕ
deriving DecidableEq, Repr

/-- Fresh warehouse right after the DDL: empty tables, sequences at 1. -/
def emptyWarehouse : Warehouse :=
  ⟨[], [], [], 1, 1, 1⟩

/-- Model of executing the DDL (`CREATE SEQUENCE/TABLE IF NOT EXISTS`):
a no-op on an existing warehouse. -/
def ensureSchema (s : Warehouse) : Warehouse := s

/-- One `INSERT INTO dim_currency ... ON CONFLICT (currency_code) DO
NOTHING`. -/
def insertCurrency (s : Warehouse) (code : String) : Warehouse :=
  if s.dim_currency.any fun r => r.currency_code = code then s
  else
    { s with
      dim_currency := s.dim_currency ++ [⟨s.seq_currency, code, currencyName code⟩]
      seq_currency := s.seq_currency + 1 }

/-- Model of `etl/load.py::_load_dim_currency`. -/
def load_dim_currency (s : Warehouse) : Warehouse :=
  CURRENCIES.foldl insertCurrency s

/-- Date-dimension attributes computed by `_load_dim_date` in Python:
`d.year`, `d.month`, `(d.month - 1) // 3 + 1`, `d.day`,
`d.weekday() >= 5`. -/
def localDateAttrs (d : FXDate) : ℕ × ℕ × ℕ × ℕ × Bool :=
  (d.year, d.month, (d.month - 1) / 3 + 1, d.day, decide (5 ≤ pyWeekday d))

/-- One `INSERT INTO dim_date ... ON CONFLICT (full_date) DO NOTHING`. -/
def insertDate (s : Warehouse) (d : FXDate) : Warehouse :=
  if s.dim_date.any fun r => r.full_date = d then s
  else
    { s with
      dim_date := s.dim_date ++
        [⟨s.seq_date, d, d.year, d.month, (d.month - 1) / 3 + 1, d.day,
          decide (5 ≤ pyWeekday d)⟩]
      seq_date := s.seq_date + 1 }

/-- Comparison used by `df["date"].unique().sort()`. -/
def dateLE (a b : FXDate) : Prop :=
  dateKey a ≤ dateKey b

instance : DecidableRel dateLE := fun a b =>
  inferInstanceAs (Decidable (dateKey a ≤ dateKey b))

/-- Distinct dates of the incoming batch, ascending
(`df["date"].unique().sort()`). -/
def uniqueSortedDates (df : List Row) : List FXDate :=
  ((df.map Row.date).dedup).insertionSort dateLE

/-- Model of `etl/load.py::_load_dim_date`. -/
def load_dim_date (s : Warehouse) (df : List Row) : Warehouse :=
  (uniqueSortedDates df).foldl insertDate s

/-- Key resolution of the `_load_fact` join: inner-join a batch row
against `dim_date` and (twice) `dim_currency`; a row whose natural keys
find no dimension row is silently dropped by the join. -/
def resolveKeys (s : Warehouse) (r : Row) : Option (ℕ × ℕ × ℕ) :=
  match s.dim_date.find? fun dr => dr.full_date = r.date,
        s.dim_currency.find? fun cr => cr.currency_code = r.from_currency,
        s.dim_currency.find? fun cr => cr.currency_code = r.to_currency with
  | some dr, some fc, some tc => some (dr.date_id, fc.currency_id, tc.currency_id)
  | _, _, _ => none

/-- Does a fact row with this `(date_id, from_currency_id, to_currency_id)`
key already exist? -/
def factKeyPresent (s : Warehouse) (k : ℕ × ℕ × ℕ) : Bool :=
  s.fact.any fun f =>
    f.date_id = k.1 && f.from_currency_id = k.2.1 && f.to_currency_id = k.2.2

/-- Insert one joined row of `INSERT INTO fact_fx_rates ... ON CONFLICT
(date_id, from_currency_id, to_currency_id) DO NOTHING` (rows are applied
in batch order; with the batch's unique natural keys this coincides with
the set-based SQL statement). -/
def insertFact (s : Warehouse) (r : Row) : Warehouse :=
  match resolveKeys s r with
  | none => s
  | some k =>
      if factKeyPresent s k then s
      else
        { s with
          fact := s.fact ++ [⟨s.seq_rate, k.1, k.2.1, k.2.2, r.rate⟩]
          seq_rate := s.seq_rate + 1 }

/-- Model of `etl/load.py::_load_fact`. -/
def load_fact (s : Warehouse) (df : List Row) : Warehouse :=
  df.foldl insertFact s

/-- Model of `etl/load.py::load`: schema, then currency dimension, then
date dimension, then facts. -/
def load (df : List Row) (s : Warehouse) : Warehouse :=
  load_fact (load_dim_date (load_dim_currency (ensureSchema s)) df) df

/-! ## etl/load_azure.py — object-storage sink

Blob paths are modelled structurally; `BlobPath.factPart y m` renders as
`fact/fact_fx_rates/year={y}/month={m:02d}/data.parquet`, and the two
dimension paths as `dim/dim_currency.parquet` / `dim/dim_date.parquet`.
The rendering is injective, so the structural store is faithful. -/

/-- Blob path inside the container. -/
inductive BlobPath where
  | dimCurrencyPath
  | dimDatePath
  | factPart (year : ℕ) (month : ℕ)
deriving DecidableEq, Repr

/-- Row of the azure date dimension (`_build_dim_date`), attributes from
polars: `dt.year/month/quarter/day`, `dt.weekday() >= 5` with ISO weekday
numbering. -/
structure AzureDateRow where
  full_date : FXDate
  year : ℕ
  month : ℕ
  quarter : ℕ
  day : ℕ
  is_weekend : Bool
deriving DecidableEq, Repr

/-- Date-dimension attributes computed by `_build_dim_date` via polars. -/
def azureDateAttrs (d : FXDate) : ℕ × ℕ × ℕ × ℕ × Bool :=
  (d.year, d.month, (d.month - 1) / 3 + 1, d.day, decide (5 ≤ polarsWeekday d))

/-- Fact row of `_build_fact`: renamed natural-key columns plus the
`year`/`month` partition columns. -/
structure AzureFactRow where
  full_date : FXDate
  from_currency_code : String
  to_currency_code : String
  rate : ℚ
  year : ℕ
  month : ℕ
deriving DecidableEq, Repr

/-- Serialized parquet content of one blob. -/
inductive Blob where
  | currencyDim (rows : List (String × String))
  | dateDim (rows : List AzureDateRow)
  | factFile (rows : List AzureFactRow)
deriving DecidableEq, Repr

/-- Blob store: container contents. -/
abbrev Store : Type := BlobPath → Option Blob

/-- Model of `_upload_parquet` with `overwrite=True`. -/
def uploadBlob (store : Store) (p : BlobPath) (b : Blob) : Store :=
  fun p' => if p' = p then some b else store p'

/-- Model of `_build_dim_currency`. -/
def buildDimCurrency : List (String × String) :=
  CURRENCIES.map fun c => (c, currencyName c)

/-- Model of `_build_dim_date`. -/
def buildDimDate (df : List Row) : List AzureDateRow :=
  (uniqueSortedDates df).map fun d =>
    ⟨d, d.year, d.month, (d.month - 1) / 3 + 1, d.day, decide (5 ≤ polarsWeekday d)⟩

/-- Model of `_build_fact`. -/
def buildFact (df : List Row) : List AzureFactRow :=
  df.map fun r =>
    ⟨r.date, r.from_currency, r.to_currency, r.rate, r.date.year, r.date.month⟩

/-- Partition keys of `fact.group_by(["year", "month"])`, in first
occurrence order (polars does not fix the group order; every order yields
the same final store since distinct groups go to distinct paths). -/
def partitionKeys (fact : List AzureFactRow) : List (ℕ × ℕ) :=
  (fact.map fun fr => (fr.year, fr.month)).dedup

/-- Write list of one `load_azure` run: the two dimension snapshots, then
one partitioned fact file per `(year, month)` group. -/
def azureWrites (df : List Row) : List (BlobPath × Blob) :=
  (BlobPath.dimCurrencyPath, Blob.currencyDim buildDimCurrency) ::
  (BlobPath.dimDatePath, Blob.dateDim (buildDimDate df)) ::
  ((partitionKeys (buildFact df)).map fun k =>
    (BlobPath.factPart k.1 k.2,
     Blob.factFile ((buildFact df).filter fun fr => (fr.year, fr.month) = k)))

/-- Apply a sequence of overwriting uploads. -/
def applyWrites (ws : List (BlobPath × Blob)) (store : Store) : Store :=
  ws.foldl (fun st w => uploadBlob st w.1 w.2) store

/-- Model of `etl/load_azure.py::load_azure`. -/
def load_azure (df : List Row) (store : Store) : Store :=
  applyWrites (azureWrites df) store

/-! ## Rounding lemmas -/

/-- The executable `round6` is rounding to the nearest multiple of
`10⁻⁶`. -/
theorem round6_eq_round (q : ℚ) :
    round6 q = ((round (q * 1000000) : ℤ) : ℚ) / 1000000 := by
  unfold round6
  congr 1
  have hden : ((q.den : ℚ)) ≠ 0 := by
    exact_mod_cast q.den_nz
  have key : (q.num : ℚ) = q * (q.den : ℚ) :=
    (div_eq_iff hden).mp (Rat.num_div_den q)
  have hq : q * 1000000 + 1 / 2 =
      ((2 * q.num * 1000000 + (q.den : ℤ) : ℤ) : ℚ) / ((2 * q.den : ℕ) : ℚ) := by
    rw [eq_div_iff (by push_cast; positivity)]
    push_cast
    linear_combination (-2000000 : ℚ) * key
  rw [round_eq, hq, Rat.floor_intCast_div_natCast]
  push_cast
  ring_nf

/-- Rounding to 6 decimals moves a value by at most `10⁻⁶`. -/
theorem abs_round6_sub_le (q : ℚ) : |round6 q - q| ≤ 1 / 1000000 := by
  rw [round6_eq_round]
  have h := abs_sub_round (q * 1000000)
  rw [abs_sub_comm] at h
  have hrw : ((round (q * 1000000) : ℤ) : ℚ) / 1000000 - q =
      (((round (q * 1000000) : ℤ) : ℚ) - q * 1000000) / 1000000 := by ring
  rw [hrw, abs_div]
  rw [abs_of_pos (by norm_num : (0 : ℚ) < 1000000)]
  linarith

/-- Rounding preserves nonnegativity. -/
theorem round6_nonneg {q : ℚ} (h : 0 ≤ q) : 0 ≤ round6 q := by
  rw [round6_eq_round]
  have h1 : (0 : ℤ) ≤ round (q * 1000000) := by
    rw [round_eq]
    rw [Int.le_floor]
    push_cast
    linarith
  positivity

/-- Values at least `10⁻⁶` stay positive after rounding. -/
theorem round6_pos {q : ℚ} (h : 1 / 1000000 ≤ q) : 0 < round6 q := by
  rw [round6_eq_round]
  have h1 : (1 : ℤ) ≤ round (q * 1000000) := by
    rw [round_eq, Int.le_floor]
    push_cast
    linarith
  have h2 : (1 : ℚ) ≤ ((round (q * 1000000) : ℤ) : ℚ) := by exact_mod_cast h1
  have : (0 : ℚ) < 1 / 1000000 := by norm_num
  calc (0 : ℚ) < 1 / 1000000 := this
    _ ≤ ((round (q * 1000000) : ℤ) : ℚ) / 1000000 := by
        apply div_le_div_of_nonneg_right h2 (by norm_num) |>.trans_eq rfl

/-! ## Association-list lemmas -/

/-- First-match lookup finds an actual entry. -/
theorem lookup_mem {t : List (String × ℚ)} {c : String} {v : ℚ}
    (h : t.lookup c = some v) : (c, v) ∈ t := by
  induction t with
  | nil => simp [List.lookup] at h
  | cons e t ih =>
      cases hbe : c == e.1 with
      | true =>
          simp only [List.lookup, hbe] at h
          cases h
          have hc : c = e.1 := beq_iff_eq.mp hbe
          subst hc
          rw [Prod.mk.eta]
          exact List.mem_cons_self _ _
      | false =>
          simp only [List.lookup, hbe] at h
          exact List.mem_cons_of_mem _ (ih h)

/-- A hit in the completed rate table is either a supplied rate or the
injected base rate 1. -/
theorem fullLookup_mem {t : List (String × ℚ)} {c : String} {v : ℚ}
    (h : fullLookup t c = some v) : (c, v) ∈ t ∨ v = 1 := by
  unfold fullLookup at h
  cases ht : t.lookup c with
  | some w => rw [ht] at h; cases h; exact Or.inl (lookup_mem ht)
  | none =>
      rw [ht] at h
      by_cases hc : c = BASE_CURRENCY
      · rw [if_pos hc] at h; cases h; exact Or.inr rfl
      · rw [if_neg hc] at h; cases h

/-- All-positive supplied rates make every completed-table hit positive. -/
theorem fullLookup_pos {t : List (String × ℚ)} {c : String} {v : ℚ}
    (hpos : ∀ e ∈ t, (0 : ℚ) < e.2) (h : fullLookup t c = some v) : 0 < v := by
  rcases fullLookup_mem h with hm | h1
  · exact hpos _ hm
  · rw [h1]; norm_num

/-- A currency absent from the supplied table and different from the base
is absent from the completed table. -/
theorem fullLookup_none {t : List (String × ℚ)} {c : String}
    (hnone : t.lookup c = none) (hc : c ≠ BASE_CURRENCY) :
    fullLookup t c = none := by
  unfold fullLookup
  rw [hnone, if_neg hc]

/-! ## collectE lemmas -/

/-- Emitted elements appear in the collected output. -/
theorem collectE_mem {α β ε : Type} (f : α → Except ε (Option β)) :
    ∀ {l : List α} {a : α} {b : β} {res : List β}, a ∈ l → f a = .ok (some b) →
      collectE f l = .ok res → b ∈ res := by
  intro l
  induction l with
  | nil => intro a b res ha; cases ha
  | cons x l ih =>
      intro a b res ha hf hres
      cases hfx : f x with
      | error e => rw [collectE, hfx] at hres; cases hres
      | ok ob =>
          cases ob with
          | none =>
              rw [collectE, hfx] at hres
              rcases List.mem_cons.mp ha with rfl | ha'
              · rw [hf] at hfx; cases hfx
              · exact ih ha' hf hres
          | some c =>
              rw [collectE, hfx] at hres
              cases hcl : collectE f l with
              | error e => rw [hcl] at hres; cases hres
              | ok res' =>
                  rw [hcl] at hres
                  cases hres
                  rcases List.mem_cons.mp ha with rfl | ha'
                  · rw [hf] at hfx
                    cases hfx
                    exact List.mem_cons_self _ _
                  · exact List.mem_cons_of_mem _ (ih ha' hf hcl)

/-- A body that never fails makes collection succeed. -/
theorem collectE_ok {α β ε : Type} (f : α → Except ε (Option β)) :
    ∀ {l : List α}, (∀ a ∈ l, ∀ e, f a ≠ .error e) →
      ∃ res, collectE f l = .ok res := by
  intro l
  induction l with
  | nil => intro _; exact ⟨[], rfl⟩
  | cons x l ih =>
      intro h
      cases hfx : f x with
      | error e => exact absurd hfx (h x (List.mem_cons_self _ _) e)
      | ok ob =>
          obtain ⟨res, hres⟩ := ih fun a ha e => h a (List.mem_cons_of_mem _ ha) e
          cases ob with
          | none => exact ⟨res, by rw [collectE, hfx]; exact hres⟩
          | some c => exact ⟨c :: res, by rw [collectE, hfx, hres]; rfl⟩

/-- A collection error is an error of the body on some element. -/
theorem collectE_error {α β ε : Type} (f : α → Except ε (Option β)) :
    ∀ {l : List α} {e : ε}, collectE f l = .error e →
      ∃ a ∈ l, f a = .error e := by
  intro l
  induction l with
  | nil => intro e h; cases h
  | cons x l ih =>
      intro e h
      cases hfx : f x with
      | error e' =>
          rw [collectE, hfx] at h
          cases h
          exact ⟨x, List.mem_cons_self _ _, hfx⟩
      | ok ob =>
          cases ob with
          | none =>
              rw [collectE, hfx] at h
              obtain ⟨a, ha, hfa⟩ := ih h
              exact ⟨a, List.mem_cons_of_mem _ ha, hfa⟩
          | some c =>
              rw [collectE, hfx] at h
              cases hcl : collectE f l with
              | error e' =>
                  rw [hcl] at h
                  cases h
                  obtain ⟨a, ha, hfa⟩ := ih hcl
                  exact ⟨a, List.mem_cons_of_mem _ ha, hfa⟩
              | ok res => rw [hcl] at h; cases h

/-- A failing body element makes the whole collection fail. -/
theorem collectE_error_of_mem {α β ε : Type} (f : α → Except ε (Option β)) :
    ∀ {l : List α} {a : α} {e : ε}, a ∈ l → f a = .error e →
      ∃ e', collectE f l = .error e' := by
  intro l
  induction l with
  | nil => intro a e ha; cases ha
  | cons x l ih =>
      intro a e ha hfa
      cases hfx : f x with
      | error e' => exact ⟨e', by rw [collectE, hfx]⟩
      | ok ob =>
          rcases List.mem_cons.mp ha with rfl | ha'
          · rw [hfa] at hfx; cases hfx
          · obtain ⟨e', he'⟩ := ih ha' hfa
            cases ob with
            | none => exact ⟨e', by rw [collectE, hfx]; exact he'⟩
            | some c => exact ⟨e', by rw [collectE, hfx, he']; rfl⟩

/-- Collected output is no longer than the input. -/
theorem collectE_length {α β ε : Type} (f : α → Except ε (Option β)) :
    ∀ {l : List α} {res : List β}, collectE f l = .ok res →
      res.length ≤ l.length := by
  intro l
  induction l with
  | nil => intro res h; cases h; simp
  | cons x l ih =>
      intro res h
      cases hfx : f x with
      | error e => rw [collectE, hfx] at h; cases h
      | ok ob =>
          cases ob with
          | none =>
              rw [collectE, hfx] at h
              exact (ih h).trans (Nat.le_succ _)
          | some c =>
              rw [collectE, hfx] at h
              cases hcl : collectE f l with
              | error e => rw [hcl] at h; cases h
              | ok res' =>
                  rw [hcl] at h
                  cases h
                  simpa using ih hcl

/-- A skipped element makes the collected output strictly shorter. -/
theorem collectE_length_lt {α β ε : Type} (f : α → Except ε (Option β)) :
    ∀ {l : List α} {a : α} {res : List β}, a ∈ l → f a = .ok none →
      collectE f l = .ok res → res.length < l.length := by
  intro l
  induction l with
  | nil => intro a res ha; cases ha
  | cons x l ih =>
      intro a res ha hfa h
      cases hfx : f x with
      | error e => rw [collectE, hfx] at h; cases h
      | ok ob =>
          cases ob with
          | none =>
              rw [collectE, hfx] at h
              exact Nat.lt_succ_of_le (collectE_length f h)
          | some c =>
              rw [collectE, hfx] at h
              cases hcl : collectE f l with
              | error e => rw [hcl] at h; cases h
              | ok res' =>
                  rw [hcl] at h
                  cases h
                  rcases List.mem_cons.mp ha with rfl | ha'
                  · rw [hfa] at hfx; cases hfx
                  · simpa using ih ha' hfa hcl

/-- When every element emits, collection succeeds with full length. -/
theorem collectE_all {α β ε : Type} (f : α → Except ε (Option β)) :
    ∀ {l : List α}, (∀ a ∈ l, ∃ b, f a = .ok (some b)) →
      ∃ res, collectE f l = .ok res ∧ res.length = l.length := by
  intro l
  induction l with
  | nil => intro _; exact ⟨[], rfl, rfl⟩
  | cons x l ih =>
      intro h
      obtain ⟨b, hb⟩ := h x (List.mem_cons_self _ _)
      obtain ⟨res, hres, hlen⟩ := ih fun a ha => h a (List.mem_cons_of_mem _ ha)
      refine ⟨b :: res, ?_, by simpa using hlen⟩
      rw [collectE, hb, hres]
      rfl

/-- Every collected element was emitted by some input element. -/
theorem collectE_sound {α β ε : Type} (f : α → Except ε (Option β)) :
    ∀ {l : List α} {res : List β}, collectE f l = .ok res →
      ∀ b ∈ res, ∃ a ∈ l, f a = .ok (some b) := by
  intro l
  induction l with
  | nil => intro res h b hb; cases h; cases hb
  | cons x l ih =>
      intro res h b hb
      cases hfx : f x with
      | error e => rw [collectE, hfx] at h; cases h
      | ok ob =>
          cases ob with
          | none =>
              rw [collectE, hfx] at h
              obtain ⟨a, ha, hfa⟩ := ih h b hb
              exact ⟨a, List.mem_cons_of_mem _ ha, hfa⟩
          | some c =>
              rw [collectE, hfx] at h
              cases hcl : collectE f l with
              | error e => rw [hcl] at h; cases h
              | ok res' =>
                  rw [hcl] at h
                  cases h
                  rcases List.mem_cons.mp hb with rfl | hb'
                  · exact ⟨x, List.mem_cons_self _ _, hfx⟩
                  · obtain ⟨a, ha, hfa⟩ := ih hcl b hb'
                    exact ⟨a, List.mem_cons_of_mem _ ha, hfa⟩

/-- Filtering out only skipped elements does not change the collection. -/
theorem collectE_filter {α β ε : Type} (f : α → Except ε (Option β))
    (p : α → Bool) :
    ∀ {l : List α}, (∀ a ∈ l, p a = false → f a = .ok none) →
      collectE f (l.filter p) = collectE f l := by
  intro l
  induction l with
  | nil => intro _; rfl
  | cons x l ih =>
      intro h
      have hrest : ∀ a ∈ l, p a = false → f a = .ok none :=
        fun a ha => h a (List.mem_cons_of_mem _ ha)
      cases hpx : p x with
      | true =>
          rw [List.filter_cons_of_pos hpx, collectE, collectE, ih hrest]
      | false =>
          rw [List.filter_cons_of_neg (by simp [hpx]), collectE,
            h x (List.mem_cons_self _ _) hpx, ih hrest]

/-! ## buildPair lemmas -/

/-- The only exception the pair body raises is the division by zero. -/
theorem buildPair_error {d : FXDate} {t : List (String × ℚ)}
    {p : String × String} {e : TfError}
    (h : buildPair d t p = .error e) : e = .divByZero := by
  cases h1 : fullLookup t p.1 with
  | none =>
      simp only [buildPair, h1] at h
      exact Except.noConfusion h
  | some ra =>
      cases h2 : fullLookup t p.2 with
      | none =>
          simp only [buildPair, h1, h2] at h
          exact Except.noConfusion h
      | some rb =>
          simp only [buildPair, h1, h2] at h
          by_cases hz : ra = 0
          · rw [if_pos hz] at h; cases h; rfl
          · rw [if_neg hz] at h; cases h

/-- Emission case of the pair body. -/
theorem buildPair_emit {d : FXDate} {t : List (String × ℚ)}
    {a b : String} {ra rb : ℚ}
    (h1 : fullLookup t a = some ra) (h2 : fullLookup t b = some rb)
    (hz : ra ≠ 0) :
    buildPair d t (a, b) = .ok (some ⟨d, a, b, round6 (rb / ra)⟩) := by
  simp only [buildPair, h1, h2]
  rw [if_neg hz]

/-- Skip cases of the pair body. -/
theorem buildPair_skip {d : FXDate} {t : List (String × ℚ)}
    {a b : String}
    (h : fullLookup t a = none ∨ fullLookup t b = none) :
    buildPair d t (a, b) = .ok none := by
  rcases h with h | h
  · simp only [buildPair, h]
  · cases h1 : fullLookup t a with
    | none => simp only [buildPair, h1]
    | some ra => simp only [buildPair, h1, h]

/-- Division-by-zero case of the pair body. -/
theorem buildPair_zero {d : FXDate} {t : List (String × ℚ)}
    {a b : String} {rb : ℚ}
    (h1 : fullLookup t a = some 0) (h2 : fullLookup t b = some rb) :
    buildPair d t (a, b) = .error .divByZero := by
  simp only [buildPair, h1, h2]
  norm_num

/-- Inversion: an emitted row records its pair, its date, and the rounded
quotient of two completed-table hits with nonzero divisor. -/
theorem buildPair_inv {d : FXDate} {t : List (String × ℚ)}
    {p : String × String} {r : Row}
    (h : buildPair d t p = .ok (some r)) :
    r.date = d ∧ r.from_currency = p.1 ∧ r.to_currency = p.2 ∧
      ∃ ra rb, fullLookup t p.1 = some ra ∧ fullLookup t p.2 = some rb ∧
        ra ≠ 0 ∧ r.rate = round6 (rb / ra) := by
  cases h1 : fullLookup t p.1 with
  | none =>
      simp only [buildPair, h1] at h
      exact Option.noConfusion (Except.ok.inj h)
  | some ra =>
      cases h2 : fullLookup t p.2 with
      | none =>
          simp only [buildPair, h1, h2] at h
          exact Option.noConfusion (Except.ok.inj h)
      | some rb =>
          simp only [buildPair, h1, h2] at h
          by_cases hz : ra = 0
          · rw [if_pos hz] at h; cases h
          · rw [if_neg hz] at h
            cases h
            exact ⟨rfl, rfl, rfl, ra, rb, rfl, rfl, hz, rfl⟩

/-- With an all-positive table the pair body never raises. -/
theorem buildPair_no_error {d : FXDate} {t : List (String × ℚ)}
    {p : String × String} (hpos : ∀ e ∈ t, (0 : ℚ) < e.2) :
    ∀ e, buildPair d t p ≠ .error e := by
  intro e h
  have := buildPair_error h
  subst this
  cases h1 : fullLookup t p.1 with
  | none =>
      simp only [buildPair, h1] at h
      exact Except.noConfusion h
  | some ra =>
      cases h2 : fullLookup t p.2 with
      | none =>
          simp only [buildPair, h1, h2] at h
          exact Except.noConfusion h
      | some rb =>
          simp only [buildPair, h1, h2] at h
          have hra := fullLookup_pos hpos h1
          rw [if_neg (ne_of_gt hra)] at h
          cases h

/-! ## orderedPairs lemmas -/

/-- Membership in the two-list pair enumeration. -/
theorem mem_op2 {l₁ l₂ : List String} {a b : String} :
    (a, b) ∈ op2 l₁ l₂ ↔ a ∈ l₁ ∧ b ∈ l₂ ∧ b ≠ a := by
  unfold op2
  simp only [List.mem_flatMap, List.mem_map, List.mem_filter]
  constructor
  · rintro ⟨x, hx, y, ⟨hy, hne⟩, heq⟩
    cases heq
    exact ⟨hx, hy, by simpa using hne⟩
  · rintro ⟨ha, hb, hne⟩
    exact ⟨a, ha, b, ⟨hb, by simpa using hne⟩, rfl⟩

/-- Membership in the ordered-pair enumeration. -/
theorem mem_orderedPairs {l : List String} {a b : String} :
    (a, b) ∈ orderedPairs l ↔ a ∈ l ∧ b ∈ l ∧ b ≠ a :=
  mem_op2

/-- Restricting both coordinate lists is filtering the pair list. -/
theorem op2_filter (g : String → Bool) (l₁ l₂ : List String) :
    op2 (l₁.filter g) (l₂.filter g) =
      (op2 l₁ l₂).filter fun p => g p.1 && g p.2 := by
  induction l₁ with
  | nil => rfl
  | cons x l ih =>
      cases hgx : g x with
      | true =>
          rw [List.filter_cons_of_pos hgx]
          unfold op2 at ih ⊢
          rw [List.flatMap_cons, List.flatMap_cons, List.filter_append, ih]
          congr 1
          rw [List.filter_map, List.filter_filter, List.filter_filter]
          congr 1
          refine List.filter_congr ?_
          intro b _
          simp [hgx, Function.comp, Bool.and_comm]
      | false =>
          rw [List.filter_cons_of_neg (by simp [hgx])]
          unfold op2 at ih ⊢
          rw [List.flatMap_cons, List.filter_append, ih]
          have hzero : (List.filter (fun p => g p.1 && g p.2)
              (List.map (fun b => (x, b)) (List.filter (fun b => b ≠ x) l₂))) = [] := by
            rw [List.filter_map, List.filter_eq_nil_iff.mpr]
            · simp
            · intro b _
              simp [Function.comp, hgx]
          rw [hzero]
          simp

/-! ## dateRecs lemmas -/

/-- With an all-positive table, a date's record building succeeds. -/
theorem dateRecs_ok {cs : List String} {d : FXDate} {t : List (String × ℚ)}
    (hpos : ∀ e ∈ t, (0 : ℚ) < e.2) :
    ∃ rs, dateRecs cs d t = .ok rs :=
  collectE_ok _ fun _ _ e => buildPair_no_error hpos e

/-- Every pair of present currencies is emitted into the date's records. -/
theorem dateRecs_mem {cs : List String} {d : FXDate} {t : List (String × ℚ)}
    {rs : List Row} {A B : String} {ra rb : ℚ}
    (hA : A ∈ cs) (hB : B ∈ cs) (hne : B ≠ A)
    (ha : fullLookup t A = some ra) (hb : fullLookup t B = some rb)
    (hz : ra ≠ 0) (hok : dateRecs cs d t = .ok rs) :
    (⟨d, A, B, round6 (rb / ra)⟩ : Row) ∈ rs :=
  collectE_mem _ (mem_orderedPairs.mpr ⟨hA, hB, hne⟩)
    (buildPair_emit ha hb hz) hok

/-- Inversion for a date's records: every row comes from an emitted pair. -/
theorem dateRecs_sound {cs : List String} {d : FXDate}
    {t : List (String × ℚ)} {rs : List Row} {r : Row}
    (hok : dateRecs cs d t = .ok rs) (hr : r ∈ rs) :
    r.date = d ∧ r.from_currency ∈ cs ∧ r.to_currency ∈ cs ∧
      r.to_currency ≠ r.from_currency ∧
      ∃ ra rb, fullLookup t r.from_currency = some ra ∧
        fullLookup t r.to_currency = some rb ∧ ra ≠ 0 ∧
        r.rate = round6 (rb / ra) := by
  obtain ⟨p, hp, hbp⟩ := collectE_sound _ hok r hr
  rcases p with ⟨a, b⟩
  obtain ⟨hp1, hp2, hpne⟩ := mem_orderedPairs.mp hp
  obtain ⟨hd, hfrom, hto, ra, rb, h1, h2, hz, hrate⟩ := buildPair_inv hbp
  refine ⟨hd, ?_, ?_, ?_, ra, rb, ?_, ?_, hz, hrate⟩
  · rw [hfrom]; exact hp1
  · rw [hto]; exact hp2
  · rw [hfrom, hto]; exact hpne
  · rw [hfrom]; exact h1
  · rw [hto]; exact h2

/-- Rows of a date's records carry that date. -/
theorem dateRecs_date {cs : List String} {d : FXDate}
    {t : List (String × ℚ)} {rs : List Row} {r : Row}
    (hok : dateRecs cs d t = .ok rs) (hr : r ∈ rs) : r.date = d :=
  (dateRecs_sound hok hr).1

/-- The only failure of a date's record building is the division by
zero. -/
theorem dateRecs_error {cs : List String} {d : FXDate}
    {t : List (String × ℚ)} {e : TfError}
    (h : dateRecs cs d t = .error e) : e = .divByZero := by
  obtain ⟨p, _, hp⟩ := collectE_error _ h
  exact buildPair_error hp

/-- A zero-rated currency alongside any present partner currency fails the
date's record building with the division by zero. -/
theorem dateRecs_zero {cs : List String} {d : FXDate}
    {t : List (String × ℚ)} {c x : String} {rx : ℚ}
    (hc : c ∈ cs) (hx : x ∈ cs) (hne : x ≠ c)
    (hzero : fullLookup t c = some 0) (hpx : fullLookup t x = some rx) :
    dateRecs cs d t = .error .divByZero := by
  obtain ⟨e', he'⟩ := collectE_error_of_mem (buildPair d t)
    (mem_orderedPairs.mpr ⟨hc, hx, hne⟩) (buildPair_zero hzero hpx)
  have := dateRecs_error he'
  rw [← this]
  exact he'

/-- Removing an absent currency from the currency list leaves a date's
records unchanged: all its pairs were skipped anyway. -/
theorem dateRecs_erase {cs : List String} {d : FXDate}
    {t : List (String × ℚ)} {c : String}
    (hnd : cs.Nodup) (habs : fullLookup t c = none) :
    dateRecs (cs.erase c) d t = dateRecs cs d t := by
  unfold dateRecs orderedPairs
  rw [hnd.erase_eq_filter, op2_filter]
  refine collectE_filter _ _ fun p _ hfalse => ?_
  rcases p with ⟨a, b⟩
  have : a = c ∨ b = c := by
    by_contra hcon
    push_neg at hcon
    simp [hcon.1, hcon.2] at hfalse
  apply buildPair_skip
  rcases this with rfl | rfl
  · exact Or.inl habs
  · exact Or.inr habs

/-! ## recordsFor lemmas -/

/-- If every date's records succeed, the whole record loop succeeds. -/
theorem recordsFor_ok {cs : List String} :
    ∀ {raw : RawRates}, (∀ p ∈ raw, ∃ rs, dateRecs cs p.1 p.2 = .ok rs) →
      ∃ all, recordsFor cs raw = .ok all := by
  intro raw
  induction raw with
  | nil => intro _; exact ⟨[], rfl⟩
  | cons p raw ih =>
      intro h
      obtain ⟨rs, hrs⟩ := h p (List.mem_cons_self _ _)
      obtain ⟨all, hall⟩ := ih fun q hq => h q (List.mem_cons_of_mem _ hq)
      rcases p with ⟨d, t⟩
      exact ⟨rs ++ all, by rw [recordsFor, hrs, hall]⟩

/-- Each date's records are contained in the whole record list. -/
theorem recordsFor_mem {cs : List String} :
    ∀ {raw : RawRates} {d : FXDate} {t : List (String × ℚ)}
      {rs all : List Row}, (d, t) ∈ raw → dateRecs cs d t = .ok rs →
      recordsFor cs raw = .ok all → ∀ r ∈ rs, r ∈ all := by
  intro raw
  induction raw with
  | nil => intro d t rs all h; cases h
  | cons p raw ih =>
      intro d t rs all hmem hrs hall r hr
      rcases p with ⟨d', t'⟩
      cases hdr : dateRecs cs d' t' with
      | error e => rw [recordsFor, hdr] at hall; cases hall
      | ok rs0 =>
          cases hrest : recordsFor cs raw with
          | error e => rw [recordsFor, hdr, hrest] at hall; cases hall
          | ok all' =>
              rw [recordsFor, hdr, hrest] at hall
              cases hall
              rcases List.mem_cons.mp hmem with heq | hmem'
              · cases heq
                rw [hdr] at hrs
                cases hrs
                exact List.mem_append_left _ hr
              · exact List.mem_append_right _ (ih hmem' hrs hrest r hr)

/-- Every record of the loop comes from some input date. -/
theorem recordsFor_sound {cs : List String} :
    ∀ {raw : RawRates} {all : List Row}, recordsFor cs raw = .ok all →
      ∀ r ∈ all, ∃ p ∈ raw, ∃ rs, dateRecs cs p.1 p.2 = .ok rs ∧ r ∈ rs := by
  intro raw
  induction raw with
  | nil => intro all h r hr; cases h; cases hr
  | cons p raw ih =>
      intro all h r hr
      rcases p with ⟨d', t'⟩
      cases hdr : dateRecs cs d' t' with
      | error e => rw [recordsFor, hdr] at h; cases h
      | ok rs0 =>
          cases hrest : recordsFor cs raw with
          | error e => rw [recordsFor, hdr, hrest] at h; cases h
          | ok all' =>
              rw [recordsFor, hdr, hrest] at h
              cases h
              rcases List.mem_append.mp hr with hr0 | hr'
              · exact ⟨(d', t'), List.mem_cons_self _ _, rs0, hdr, hr0⟩
              · obtain ⟨q, hq, rs, hrs, hrrs⟩ := ih hrest r hr'
                exact ⟨q, List.mem_cons_of_mem _ hq, rs, hrs, hrrs⟩

/-- A record-loop error is an error of some date's record building. -/
theorem recordsFor_error {cs : List String} :
    ∀ {raw : RawRates} {e : TfError}, recordsFor cs raw = .error e →
      ∃ p ∈ raw, dateRecs cs p.1 p.2 = .error e := by
  intro raw
  induction raw with
  | nil => intro e h; cases h
  | cons p raw ih =>
      intro e h
      rcases p with ⟨d', t'⟩
      cases hdr : dateRecs cs d' t' with
      | error e' =>
          rw [recordsFor, hdr] at h
          cases h
          exact ⟨(d', t'), List.mem_cons_self _ _, hdr⟩
      | ok rs0 =>
          cases hrest : recordsFor cs raw with
          | error e' =>
              rw [recordsFor, hdr, hrest] at h
              cases h
              obtain ⟨q, hq, hqe⟩ := ih hrest
              exact ⟨q, List.mem_cons_of_mem _ hq, hqe⟩
          | ok all' => rw [recordsFor, hdr, hrest] at h; cases h

/-- A failing date fails the whole record loop. -/
theorem recordsFor_error_of_mem {cs : List String} :
    ∀ {raw : RawRates} {d : FXDate} {t : List (String × ℚ)} {e : TfError},
      (d, t) ∈ raw → dateRecs cs d t = .error e →
      ∃ e', recordsFor cs raw = .error e' := by
  intro raw
  induction raw with
  | nil => intro d t e h; cases h
  | cons p raw ih =>
      intro d t e hmem hde
      rcases p with ⟨d', t'⟩
      cases hdr : dateRecs cs d' t' with
      | error e' => exact ⟨e', by rw [recordsFor, hdr]⟩
      | ok rs0 =>
          rcases List.mem_cons.mp hmem with heq | hmem'
          · cases heq
            rw [hde] at hdr
            cases hdr
          · obtain ⟨e', he'⟩ := ih hmem' hde
            exact ⟨e', by rw [recordsFor, hdr, he']⟩

/-- With duplicate-free date keys, restricting the record loop's output to
one input date gives exactly that date's records. -/
theorem recordsFor_filter {cs : List String} :
    ∀ {raw : RawRates} {d : FXDate} {t : List (String × ℚ)}
      {rs all : List Row}, (raw.map Prod.fst).Nodup → (d, t) ∈ raw →
      dateRecs cs d t = .ok rs → recordsFor cs raw = .ok all →
      all.filter (fun r => r.date = d) = rs := by
  intro raw
  induction raw with
  | nil => intro d t rs all _ h; cases h
  | cons p raw ih =>
      intro d t rs all hnd hmem hrs hall
      rcases p with ⟨d', t'⟩
      rw [List.map_cons, List.nodup_cons] at hnd
      cases hdr : dateRecs cs d' t' with
      | error e => rw [recordsFor, hdr] at hall; cases hall
      | ok rs0 =>
          cases hrest : recordsFor cs raw with
          | error e => rw [recordsFor, hdr, hrest] at hall; cases hall
          | ok all' =>
              rw [recordsFor, hdr, hrest] at hall
              cases hall
              rw [List.filter_append]
              rcases List.mem_cons.mp hmem with heq | hmem'
              · cases heq
                have hrseq : rs = rs0 := by
                  rw [hdr] at hrs
                  exact (Except.ok.inj hrs).symm
                have h1 : rs0.filter (fun r => r.date = d) = rs0 :=
                  List.filter_eq_self.mpr fun r hr => by
                    simp [dateRecs_date hdr hr]
                have h2 : all'.filter (fun r => r.date = d) = [] := by
                  refine List.filter_eq_nil_iff.mpr fun r hr => ?_
                  obtain ⟨q, hq, rsq, hrsq, hrq⟩ := recordsFor_sound hrest r hr
                  have hdate := dateRecs_date hrsq hrq
                  have hkey : q.1 ∈ raw.map Prod.fst := List.mem_map_of_mem _ hq
                  simp only [hdate, decide_eq_true_eq]
                  intro hcon
                  exact hnd.1 (hcon ▸ hkey)
                rw [h1, h2, List.append_nil, hrseq]
              · have hne : d ≠ d' := by
                  intro hcon
                  apply hnd.1
                  rw [← hcon]
                  exact List.mem_map.mpr ⟨(d, t), hmem', rfl⟩
                have h1 : rs0.filter (fun r => r.date = d) = [] := by
                  refine List.filter_eq_nil_iff.mpr fun r hr => ?_
                  simp [dateRecs_date hdr hr, hne.symm]
                rw [h1, List.nil_append]
                exact ih hnd.2 hmem' hrs hrest

/-! ## Sorting and whole-transform lemmas -/

/-- Sorting does not change membership. -/
theorem mem_sortRows {l : List Row} {r : Row} : r ∈ sortRows l ↔ r ∈ l :=
  (List.perm_insertionSort rowLE l).mem_iff

/-- The sorted output is sorted by (date, from, to). -/
theorem sortRows_sorted (l : List Row) : List.Sorted rowLE (sortRows l) :=
  List.sorted_insertionSort rowLE l

/-- Sorting does not change the number of rows. -/
theorem sortRows_length (l : List Row) : (sortRows l).length = l.length :=
  (List.perm_insertionSort rowLE l).length_eq

/-- Sorting commutes with filters, up to permutation. -/
theorem sortRows_filter_perm (l : List Row) (p : Row → Bool) :
    ((sortRows l).filter p).Perm (l.filter p) :=
  (List.perm_insertionSort rowLE l).filter p

/-- Successful transform: sorted records of a nonempty record list. -/
theorem computeWith_ok {cs : List String} {raw : RawRates} {all : List Row}
    (hall : recordsFor cs raw = .ok all) (hne : all ≠ []) :
    computeWith cs raw = .ok (sortRows all) := by
  unfold computeWith
  rw [hall]
  cases all with
  | nil => exact absurd rfl hne
  | cons r rs => rfl

/-- Inversion of a successful transform. -/
theorem computeWith_ok_inv {cs : List String} {raw : RawRates}
    {out : List Row} (h : computeWith cs raw = .ok out) :
    ∃ all, recordsFor cs raw = .ok all ∧ all ≠ [] ∧ out = sortRows all := by
  unfold computeWith at h
  cases hall : recordsFor cs raw with
  | error e => rw [hall] at h; cases h
  | ok all =>
      rw [hall] at h
      cases all with
      | nil => cases h
      | cons r rs =>
          cases h
          exact ⟨r :: rs, rfl, by simp, rfl⟩

/-! ## Success chains -/

/-- All-positive raw rates make the record loop succeed. -/
theorem recordsFor_pos_ok {cs : List String} {raw : RawRates}
    (hpos : ∀ p ∈ raw, ∀ e ∈ p.2, (0 : ℚ) < e.2) :
    ∃ all, recordsFor cs raw = .ok all :=
  recordsFor_ok fun p hp => dateRecs_ok (hpos p hp)

/-- A base-free table completes with the injected base rate 1. -/
theorem fullLookup_base {t : List (String × ℚ)}
    (hEUR : t.lookup BASE_CURRENCY = none) :
    fullLookup t BASE_CURRENCY = some 1 := by
  unfold fullLookup
  rw [hEUR]
  simp

/-- Single-date run where every currency of the fixed set is present with
a nonzero completed rate: all 42 ordered pairs are emitted and the
transform succeeds with the sorted records. -/
theorem singleDate_ok {d : FXDate} {t : List (String × ℚ)}
    (hpres : ∀ c ∈ CURRENCIES, ∃ v, fullLookup t c = some v ∧ v ≠ 0) :
    ∃ rs, dateRecs CURRENCIES d t = .ok rs ∧ rs.length = 42 ∧
      compute_cross_pairs [(d, t)] = .ok (sortRows rs) := by
  have hemit : ∀ p ∈ orderedPairs CURRENCIES, ∃ row,
      buildPair d t p = .ok (some row) := by
    intro p hp
    rcases p with ⟨a, b⟩
    obtain ⟨ha, hb, _⟩ := mem_orderedPairs.mp hp
    obtain ⟨ra, hra, hraz⟩ := hpres a ha
    obtain ⟨rb, hrb, _⟩ := hpres b hb
    exact ⟨_, buildPair_emit hra hrb hraz⟩
  obtain ⟨rs, hrs, hlen⟩ := collectE_all _ hemit
  have hops : (orderedPairs CURRENCIES).length = 42 := by decide
  have hrs42 : rs.length = 42 := by rw [hlen, hops]
  have hdr : dateRecs CURRENCIES d t = .ok rs := hrs
  have hrec : recordsFor CURRENCIES [(d, t)] = .ok (rs ++ []) := by
    rw [recordsFor, hdr, recordsFor]
  rw [List.append_nil] at hrec
  have hne : rs ≠ [] := by
    intro hcon
    rw [hcon] at hrs42
    cases hrs42
  exact ⟨rs, hrs, hrs42, computeWith_ok hrec hne⟩

/-! ## Claim C2 -/

/-- C2: for every date in the input and every ordered pair (A, B) of
distinct currencies of the fixed 7-currency set present in the completed
table (the supplied non-base rates extended with EUR ↦ 1), the transform
emits the row `rate(A→B) = round6(table[B] / table[A])`; that value is
within `10⁻⁶` of `b / a`, and for `A = EUR` the divisor is exactly 1, so
`rate(EUR→X)` is the raw input rate for `X` up to the 6-decimal
rounding. -/
theorem C2_cross_rate_formula
    {raw : RawRates} {d : FXDate} {t : List (String × ℚ)} {A B : String}
    {a b : ℚ}
    (hmem : (d, t) ∈ raw)
    (hpos : ∀ p ∈ raw, ∀ e ∈ p.2, (0 : ℚ) < e.2)
    (hEUR : t.lookup BASE_CURRENCY = none)
    (hA : A ∈ CURRENCIES) (hB : B ∈ CURRENCIES) (hAB : A ≠ B)
    (ha : fullLookup t A = some a) (hb : fullLookup t B = some b) :
    ∃ out, compute_cross_pairs raw = .ok out ∧
      (⟨d, A, B, round6 (b / a)⟩ : Row) ∈ out ∧
      |round6 (b / a) - b / a| ≤ 1 / 1000000 ∧
      (A = BASE_CURRENCY → a = 1 ∧ round6 (b / a) = round6 b) := by
  have hposd : ∀ e ∈ t, (0 : ℚ) < e.2 := hpos (d, t) hmem
  have haz : a ≠ 0 := ne_of_gt (fullLookup_pos hposd ha)
  obtain ⟨all, hall⟩ := @recordsFor_pos_ok CURRENCIES raw hpos
  obtain ⟨rs, hrs⟩ := @dateRecs_ok CURRENCIES d t hposd
  have hrow : (⟨d, A, B, round6 (b / a)⟩ : Row) ∈ rs :=
    dateRecs_mem hA hB (Ne.symm hAB) ha hb haz hrs
  have hrow_all : (⟨d, A, B, round6 (b / a)⟩ : Row) ∈ all :=
    recordsFor_mem hmem hrs hall _ hrow
  have hne_all : all ≠ [] := by
    intro hcon
    rw [hcon] at hrow_all
    cases hrow_all
  refine ⟨sortRows all, computeWith_ok hall hne_all,
    mem_sortRows.mpr hrow_all, abs_round6_sub_le _, ?_⟩
  intro hAE
  have h1 : fullLookup t BASE_CURRENCY = some 1 := fullLookup_base hEUR
  rw [hAE, h1] at ha
  have ha1 : a = 1 := (Option.some.inj ha).symm
  exact ⟨ha1, by rw [ha1, div_one]⟩

/-- Witness for C2 at the repository's own fixture date 2026-02-17 with
the pair (NOK, SEK). -/
theorem C2_witness :
    ∃ out, compute_cross_pairs
        [(⟨2026, 2, 17⟩,
          [("NOK", (1174 : ℚ)/100), ("SEK", (1123 : ℚ)/100),
           ("PLN", (421 : ℚ)/100), ("RON", (498 : ℚ)/100),
           ("DKK", (746 : ℚ)/100), ("CZK", (2510 : ℚ)/100)])] = .ok out ∧
      (⟨⟨2026, 2, 17⟩, "NOK", "SEK",
        round6 ((1123 : ℚ)/100 / ((1174 : ℚ)/100))⟩ : Row) ∈ out ∧
      |round6 ((1123 : ℚ)/100 / ((1174 : ℚ)/100)) -
        (1123 : ℚ)/100 / ((1174 : ℚ)/100)| ≤ 1 / 1000000 ∧
      ("NOK" = BASE_CURRENCY →
        (1174 : ℚ)/100 = 1 ∧
        round6 ((1123 : ℚ)/100 / ((1174 : ℚ)/100)) =
          round6 ((1123 : ℚ)/100)) := by
  refine C2_cross_rate_formula (List.Mem.head _) ?_ rfl (by decide) (by decide)
    (by decide) rfl rfl
  intro p hp e he
  simp only [List.mem_singleton] at hp
  subst hp
  simp only [List.mem_cons, List.not_mem_nil, or_false] at he
  rcases he with rfl | rfl | rfl | rfl | rfl | rfl <;> norm_num

/-! ## Claim C3 -/

/-- C3: contrary to the claim, the transform does fail on the empty
mapping: zero records give `pl.DataFrame([])` no columns, so the
conversion of the `date` column raises (and the summary log line would
divide by zero); the model returns the corresponding error rather than an
empty output. -/
theorem C3_empty_input_raises :
    compute_cross_pairs [] = .error .emptyFrame := rfl

/-! ## Claim C10 -/

/-- C10: the division in the transform is unguarded. With all supplied
rates positive the run never raises the division error; a zero-rated
currency of the fixed set coexisting with any present partner currency
makes the whole run raise it; and on such a pair the body raises instead
of skipping or emitting. -/
theorem C10_division_guard :
    (∀ raw : RawRates, (∀ p ∈ raw, ∀ e ∈ p.2, (0 : ℚ) < e.2) →
       compute_cross_pairs raw ≠ .error .divByZero) ∧
    (∀ (raw : RawRates) (d : FXDate) (t : List (String × ℚ)) (c x : String)
       (rx : ℚ), (d, t) ∈ raw → c ∈ CURRENCIES → x ∈ CURRENCIES → x ≠ c →
       fullLookup t c = some 0 → fullLookup t x = some rx →
       compute_cross_pairs raw = .error .divByZero) ∧
    (∀ (d : FXDate) (t : List (String × ℚ)) (c x : String) (rx : ℚ),
       fullLookup t c = some 0 → fullLookup t x = some rx →
       buildPair d t (c, x) = .error .divByZero) := by
  refine ⟨?_, ?_, ?_⟩
  · intro raw hpos hcon
    obtain ⟨all, hall⟩ := @recordsFor_pos_ok CURRENCIES raw hpos
    unfold compute_cross_pairs computeWith at hcon
    rw [hall] at hcon
    cases all with
    | nil => exact TfError.noConfusion (Except.error.inj hcon)
    | cons r rs => exact Except.noConfusion hcon
  · intro raw d t c x rx hmem hc hx hne hzero hpx
    have hdr : dateRecs CURRENCIES d t = .error .divByZero :=
      dateRecs_zero hc hx hne hzero hpx
    obtain ⟨e', he'⟩ := recordsFor_error_of_mem hmem hdr
    have hkind : e' = .divByZero := by
      obtain ⟨p, _, hpe⟩ := recordsFor_error he'
      exact dateRecs_error hpe
    subst hkind
    unfold compute_cross_pairs computeWith
    rw [he']
  · intro d t c x rx hzero hpx
    exact buildPair_zero hzero hpx

/-- Witness for C10: a positive-rate run does not raise the division
error, while a zero NOK rate makes the run (and the NOK→EUR pair body)
raise it. -/
theorem C10_witness :
    compute_cross_pairs [(⟨2026, 2, 17⟩, [("NOK", (2 : ℚ))])] ≠
      .error .divByZero ∧
    compute_cross_pairs [(⟨2026, 2, 17⟩, [("NOK", (0 : ℚ))])] =
      .error .divByZero ∧
    buildPair ⟨2026, 2, 17⟩ [("NOK", (0 : ℚ))] ("NOK", "EUR") =
      .error .divByZero := by
  refine ⟨C10_division_guard.1 _ ?_,
    C10_division_guard.2.1 _ ⟨2026, 2, 17⟩ [("NOK", (0 : ℚ))] "NOK" "EUR" 1
      (List.Mem.head _) (by decide) (by decide) (by decide) rfl rfl,
    C10_division_guard.2.2 ⟨2026, 2, 17⟩ [("NOK", (0 : ℚ))] "NOK" "EUR" 1
      rfl rfl⟩
  intro p hp e he
  simp only [List.mem_singleton] at hp
  subst hp
  simp only [List.mem_singleton] at he
  subst he
  norm_num

/-! ## Claim C9 -/

/-- C9: every successful output of the transform is sorted ascending by
the key (date, fromCurrency, toCurrency); the transform is a pure
function of its input, so repeated runs return this same sequence. -/
theorem C9_output_sorted {raw : RawRates} {out : List Row}
    (h : compute_cross_pairs raw = .ok out) : List.Sorted rowLE out := by
  obtain ⟨all, _, _, hout⟩ := computeWith_ok_inv h
  rw [hout]
  exact sortRows_sorted all

/-- Witness for C9: a concrete two-currency run evaluates to an explicit
sorted six-row output. -/
theorem C9_witness :
    compute_cross_pairs
        [(⟨2026, 2, 17⟩, [("NOK", (1174 : ℚ)/100), ("SEK", (1123 : ℚ)/100)])] =
      .ok [⟨⟨2026, 2, 17⟩, "EUR", "NOK", (587 : ℚ)/50⟩,
           ⟨⟨2026, 2, 17⟩, "EUR", "SEK", (1123 : ℚ)/100⟩,
           ⟨⟨2026, 2, 17⟩, "NOK", "EUR", (85179 : ℚ)/1000000⟩,
           ⟨⟨2026, 2, 17⟩, "NOK", "SEK", (956559 : ℚ)/1000000⟩,
           ⟨⟨2026, 2, 17⟩, "SEK", "EUR", (89047 : ℚ)/1000000⟩,
           ⟨⟨2026, 2, 17⟩, "SEK", "NOK", (522707 : ℚ)/500000⟩] ∧
    List.Sorted rowLE
      [⟨⟨2026, 2, 17⟩, "EUR", "NOK", (587 : ℚ)/50⟩,
       ⟨⟨2026, 2, 17⟩, "EUR", "SEK", (1123 : ℚ)/100⟩,
       ⟨⟨2026, 2, 17⟩, "NOK", "EUR", (85179 : ℚ)/1000000⟩,
       ⟨⟨2026, 2, 17⟩, "NOK", "SEK", (956559 : ℚ)/1000000⟩,
       ⟨⟨2026, 2, 17⟩, "SEK", "EUR", (89047 : ℚ)/1000000⟩,
       ⟨⟨2026, 2, 17⟩, "SEK", "NOK", (522707 : ℚ)/500000⟩] := by
  have h : compute_cross_pairs
      [(⟨2026, 2, 17⟩, [("NOK", (1174 : ℚ)/100), ("SEK", (1123 : ℚ)/100)])] =
      .ok [⟨⟨2026, 2, 17⟩, "EUR", "NOK", (587 : ℚ)/50⟩,
           ⟨⟨2026, 2, 17⟩, "EUR", "SEK", (1123 : ℚ)/100⟩,
           ⟨⟨2026, 2, 17⟩, "NOK", "EUR", (85179 : ℚ)/1000000⟩,
           ⟨⟨2026, 2, 17⟩, "NOK", "SEK", (956559 : ℚ)/1000000⟩,
           ⟨⟨2026, 2, 17⟩, "SEK", "EUR", (89047 : ℚ)/1000000⟩,
           ⟨⟨2026, 2, 17⟩, "SEK", "NOK", (522707 : ℚ)/500000⟩] := by
    with_unfolding_all rfl
  exact ⟨h, C9_output_sorted h⟩

/-! ## Claim C5 -/

/-- C5 (amended): a single-date input supplying a positive rate for every
non-base currency of the fixed set yields exactly 7×6 = 42 rows, each
with distinct currencies and nonnegative rate; the original claim's
strict positivity additionally needs every completed-table ratio b/a to
reach the rounding threshold `10⁻⁶`, since smaller ratios round to 0. -/
theorem C5_single_date {d : FXDate} {t : List (String × ℚ)}
    (hEUR : t.lookup BASE_CURRENCY = none)
    (hsup : ∀ c ∈ CURRENCIES, c ≠ BASE_CURRENCY → (t.lookup c).isSome)
    (hpos : ∀ e ∈ t, (0 : ℚ) < e.2) :
    ∃ out, compute_cross_pairs [(d, t)] = .ok out ∧
      out.length = 42 ∧
      (∀ r ∈ out, r.from_currency ≠ r.to_currency ∧ 0 ≤ r.rate) ∧
      ((∀ (A B : String) (a b : ℚ), fullLookup t A = some a →
          fullLookup t B = some b → 1 / 1000000 ≤ b / a) →
        ∀ r ∈ out, 0 < r.rate) := by
  have hpres : ∀ c ∈ CURRENCIES, ∃ v, fullLookup t c = some v ∧ v ≠ 0 := by
    intro c hc
    by_cases hcb : c = BASE_CURRENCY
    · exact ⟨1, by rw [hcb]; exact fullLookup_base hEUR, one_ne_zero⟩
    · obtain ⟨v, hv⟩ := Option.isSome_iff_exists.mp (hsup c hc hcb)
      have hfl : fullLookup t c = some v := by unfold fullLookup; rw [hv]
      exact ⟨v, hfl, ne_of_gt (hpos _ (lookup_mem hv))⟩
  obtain ⟨rs, hrs, h42, hout⟩ := @singleDate_ok d t hpres
  refine ⟨sortRows rs, hout, by rw [sortRows_length, h42], ?_, ?_⟩
  · intro r hr
    have hrrs := mem_sortRows.mp hr
    obtain ⟨_, _, _, hne, ra, rb, hra, hrb, _, hrate⟩ := dateRecs_sound hrs hrrs
    refine ⟨Ne.symm hne, ?_⟩
    have hrapos : 0 < ra := fullLookup_pos hpos hra
    have hrbpos : 0 < rb := fullLookup_pos hpos hrb
    rw [hrate]
    exact round6_nonneg (le_of_lt (div_pos hrbpos hrapos))
  · intro hratio r hr
    have hrrs := mem_sortRows.mp hr
    obtain ⟨_, _, _, _, ra, rb, hra, hrb, _, hrate⟩ := dateRecs_sound hrs hrrs
    rw [hrate]
    exact round6_pos (hratio _ _ _ _ hra hrb)

/-- Counterexample to C5 as stated: with all supplied rates positive
(NOK ↦ 4000000, the five others ↦ 1) the 42-row output contains the row
NOK→EUR whose rate rounds to 0, so "rateValue > 0" fails. -/
theorem C5_counterexample :
    (∀ c ∈ CURRENCIES, c ≠ BASE_CURRENCY →
      (([("NOK", (4000000 : ℚ)), ("SEK", (1 : ℚ)), ("PLN", (1 : ℚ)),
         ("RON", (1 : ℚ)), ("DKK", (1 : ℚ)), ("CZK", (1 : ℚ))]
        : List (String × ℚ)).lookup c).isSome) ∧
    (∀ e ∈ ([("NOK", (4000000 : ℚ)), ("SEK", (1 : ℚ)), ("PLN", (1 : ℚ)),
         ("RON", (1 : ℚ)), ("DKK", (1 : ℚ)), ("CZK", (1 : ℚ))]
        : List (String × ℚ)), (0 : ℚ) < e.2) ∧
    ∃ out, compute_cross_pairs
        [(⟨2026, 2, 17⟩,
          [("NOK", (4000000 : ℚ)), ("SEK", (1 : ℚ)), ("PLN", (1 : ℚ)),
           ("RON", (1 : ℚ)), ("DKK", (1 : ℚ)), ("CZK", (1 : ℚ))])] =
        .ok out ∧
      ∃ r ∈ out, ¬ (0 < r.rate) := by
  refine ⟨by decide, ?_, ?_⟩
  · intro e he
    simp only [List.mem_cons, List.not_mem_nil, or_false] at he
    rcases he with rfl | rfl | rfl | rfl | rfl | rfl <;> norm_num
  · have hpres : ∀ c ∈ CURRENCIES, ∃ v,
        fullLookup [("NOK", (4000000 : ℚ)), ("SEK", (1 : ℚ)),
          ("PLN", (1 : ℚ)), ("RON", (1 : ℚ)), ("DKK", (1 : ℚ)),
          ("CZK", (1 : ℚ))] c = some v ∧ v ≠ 0 := by
      intro c hc
      fin_cases hc
      · exact ⟨4000000, rfl, by norm_num⟩
      · exact ⟨1, rfl, one_ne_zero⟩
      · exact ⟨1, rfl, one_ne_zero⟩
      · exact ⟨1, rfl, one_ne_zero⟩
      · exact ⟨1, rfl, one_ne_zero⟩
      · exact ⟨1, rfl, one_ne_zero⟩
      · exact ⟨1, rfl, one_ne_zero⟩
    obtain ⟨rs, hrs, _, hout⟩ := @singleDate_ok ⟨2026, 2, 17⟩ _ hpres
    refine ⟨sortRows rs, hout, ?_⟩
    have ha : fullLookup [("NOK", (4000000 : ℚ)), ("SEK", (1 : ℚ)),
        ("PLN", (1 : ℚ)), ("RON", (1 : ℚ)), ("DKK", (1 : ℚ)),
        ("CZK", (1 : ℚ))] "NOK" = some 4000000 := rfl
    have hb : fullLookup [("NOK", (4000000 : ℚ)), ("SEK", (1 : ℚ)),
        ("PLN", (1 : ℚ)), ("RON", (1 : ℚ)), ("DKK", (1 : ℚ)),
        ("CZK", (1 : ℚ))] "EUR" = some 1 := rfl
    have hrow : (⟨⟨2026, 2, 17⟩, "NOK", "EUR",
        round6 ((1 : ℚ) / 4000000)⟩ : Row) ∈ rs :=
      dateRecs_mem (by decide) (by decide) (by decide) ha hb
        (by norm_num) hrs
    refine ⟨_, mem_sortRows.mpr hrow, ?_⟩
    have hz : round6 ((1 : ℚ) / 4000000) = 0 := by with_unfolding_all rfl
    intro hcon
    have hrate : (⟨⟨2026, 2, 17⟩, "NOK", "EUR",
        round6 ((1 : ℚ) / 4000000)⟩ : Row).rate = 0 := hz
    rw [hrate] at hcon
    exact lt_irrefl 0 hcon

/-- Witness for the amended C5 at the repository's fixture date. -/
theorem C5_witness :
    ∃ out, compute_cross_pairs
        [(⟨2026, 2, 17⟩,
          [("NOK", (1174 : ℚ)/100), ("SEK", (1123 : ℚ)/100),
           ("PLN", (421 : ℚ)/100), ("RON", (498 : ℚ)/100),
           ("DKK", (746 : ℚ)/100), ("CZK", (2510 : ℚ)/100)])] = .ok out ∧
      out.length = 42 ∧
      (∀ r ∈ out, r.from_currency ≠ r.to_currency ∧ 0 ≤ r.rate) ∧
      ((∀ (A B : String) (a b : ℚ),
          fullLookup [("NOK", (1174 : ℚ)/100), ("SEK", (1123 : ℚ)/100),
            ("PLN", (421 : ℚ)/100), ("RON", (498 : ℚ)/100),
            ("DKK", (746 : ℚ)/100), ("CZK", (2510 : ℚ)/100)] A = some a →
          fullLookup [("NOK", (1174 : ℚ)/100), ("SEK", (1123 : ℚ)/100),
            ("PLN", (421 : ℚ)/100), ("RON", (498 : ℚ)/100),
            ("DKK", (746 : ℚ)/100), ("CZK", (2510 : ℚ)/100)] B = some b →
          1 / 1000000 ≤ b / a) →
        ∀ r ∈ out, 0 < r.rate) := by
  refine C5_single_date rfl (by decide) ?_
  intro e he
  simp only [List.mem_cons, List.not_mem_nil, or_false] at he
  rcases he with rfl | rfl | rfl | rfl | rfl | rfl <;> norm_num

/-! ## Local-loader step lemmas -/

/-- The currency upsert touches only `dim_currency` and its sequence. -/
theorem insertCurrency_dim_date (s : Warehouse) (c : String) :
    (insertCurrency s c).dim_date = s.dim_date := by
  unfold insertCurrency
  split <;> rfl

theorem insertCurrency_fact (s : Warehouse) (c : String) :
    (insertCurrency s c).fact = s.fact := by
  unfold insertCurrency
  split <;> rfl

/-- The date upsert touches only `dim_date` and its sequence. -/
theorem insertDate_dim_currency (s : Warehouse) (d : FXDate) :
    (insertDate s d).dim_currency = s.dim_currency := by
  unfold insertDate
  split <;> rfl

theorem insertDate_fact (s : Warehouse) (d : FXDate) :
    (insertDate s d).fact = s.fact := by
  unfold insertDate
  split <;> rfl

/-- The fact insert touches only `fact_fx_rates` and its sequence. -/
theorem insertFact_dim_currency (s : Warehouse) (r : Row) :
    (insertFact s r).dim_currency = s.dim_currency := by
  unfold insertFact
  cases resolveKeys s r with
  | none => rfl
  | some k =>
      by_cases h : factKeyPresent s k
      · simp [h]
      · simp [h]

theorem insertFact_dim_date (s : Warehouse) (r : Row) :
    (insertFact s r).dim_date = s.dim_date := by
  unfold insertFact
  cases resolveKeys s r with
  | none => rfl
  | some k =>
      by_cases h : factKeyPresent s k
      · simp [h]
      · simp [h]

/-! ## Local-loader fold lemmas -/

theorem foldlC_dim_date : ∀ (cs : List String) (s : Warehouse),
    (cs.foldl insertCurrency s).dim_date = s.dim_date := by
  intro cs
  induction cs with
  | nil => intro s; rfl
  | cons c cs ih =>
      intro s
      rw [List.foldl_cons, ih, insertCurrency_dim_date]

theorem foldlC_fact : ∀ (cs : List String) (s : Warehouse),
    (cs.foldl insertCurrency s).fact = s.fact := by
  intro cs
  induction cs with
  | nil => intro s; rfl
  | cons c cs ih =>
      intro s
      rw [List.foldl_cons, ih, insertCurrency_fact]

theorem foldlD_dim_currency : ∀ (ds : List FXDate) (s : Warehouse),
    (ds.foldl insertDate s).dim_currency = s.dim_currency := by
  intro ds
  induction ds with
  | nil => intro s; rfl
  | cons d ds ih =>
      intro s
      rw [List.foldl_cons, ih, insertDate_dim_currency]

theorem foldlD_fact : ∀ (ds : List FXDate) (s : Warehouse),
    (ds.foldl insertDate s).fact = s.fact := by
  intro ds
  induction ds with
  | nil => intro s; rfl
  | cons d ds ih =>
      intro s
      rw [List.foldl_cons, ih, insertDate_fact]

theorem load_fact_dim_currency : ∀ (df : List Row) (s : Warehouse),
    (load_fact s df).dim_currency = s.dim_currency := by
  intro df
  induction df with
  | nil => intro s; rfl
  | cons r df ih =>
      intro s
      unfold load_fact at ih ⊢
      rw [List.foldl_cons, ih, insertFact_dim_currency]

theorem load_fact_dim_date : ∀ (df : List Row) (s : Warehouse),
    (load_fact s df).dim_date = s.dim_date := by
  intro df
  induction df with
  | nil => intro s; rfl
  | cons r df ih =>
      intro s
      unfold load_fact at ih ⊢
      rw [List.foldl_cons, ih, insertFact_dim_date]

/-! ## Dimension tables only grow -/

theorem insertCurrency_extend (s : Warehouse) (c : String) :
    ∃ l, (insertCurrency s c).dim_currency = s.dim_currency ++ l := by
  unfold insertCurrency
  split
  · exact ⟨[], (List.append_nil _).symm⟩
  · exact ⟨_, rfl⟩

theorem foldlC_extend : ∀ (cs : List String) (s : Warehouse),
    ∃ l, (cs.foldl insertCurrency s).dim_currency = s.dim_currency ++ l := by
  intro cs
  induction cs with
  | nil => intro s; exact ⟨[], (List.append_nil _).symm⟩
  | cons c cs ih =>
      intro s
      obtain ⟨l₁, h₁⟩ := insertCurrency_extend s c
      obtain ⟨l₂, h₂⟩ := ih (insertCurrency s c)
      exact ⟨l₁ ++ l₂, by rw [List.foldl_cons, h₂, h₁, List.append_assoc]⟩

theorem insertDate_extend (s : Warehouse) (d : FXDate) :
    ∃ l, (insertDate s d).dim_date = s.dim_date ++ l := by
  unfold insertDate
  split
  · exact ⟨[], (List.append_nil _).symm⟩
  · exact ⟨_, rfl⟩

theorem foldlD_extend : ∀ (ds : List FXDate) (s : Warehouse),
    ∃ l, (ds.foldl insertDate s).dim_date = s.dim_date ++ l := by
  intro ds
  induction ds with
  | nil => intro s; exact ⟨[], (List.append_nil _).symm⟩
  | cons d ds ih =>
      intro s
      obtain ⟨l₁, h₁⟩ := insertDate_extend s d
      obtain ⟨l₂, h₂⟩ := ih (insertDate s d)
      exact ⟨l₁ ++ l₂, by rw [List.foldl_cons, h₂, h₁, List.append_assoc]⟩

theorem insertFact_extend (s : Warehouse) (r : Row) :
    ∃ l, (insertFact s r).fact = s.fact ++ l := by
  unfold insertFact
  cases resolveKeys s r with
  | none => exact ⟨[], (List.append_nil _).symm⟩
  | some k =>
      by_cases h : factKeyPresent s k
      · simp only [h, if_true]
        exact ⟨[], (List.append_nil _).symm⟩
      · simp only [h, if_false]
        exact ⟨_, rfl⟩

theorem load_fact_extend : ∀ (df : List Row) (s : Warehouse),
    ∃ l, (load_fact s df).fact = s.fact ++ l := by
  intro df
  induction df with
  | nil => intro s; exact ⟨[], (List.append_nil _).symm⟩
  | cons r df ih =>
      intro s
      obtain ⟨l₁, h₁⟩ := insertFact_extend s r
      obtain ⟨l₂, h₂⟩ := ih (insertFact s r)
      exact ⟨l₁ ++ l₂, by
        unfold load_fact
        rw [List.foldl_cons]
        unfold load_fact at h₂
        rw [h₂, h₁, List.append_assoc]⟩

/-! ## Presence after upserts -/

theorem insertCurrency_present (s : Warehouse) (c : String) :
    ((insertCurrency s c).dim_currency.any
      fun r => r.currency_code = c) = true := by
  unfold insertCurrency
  split
  · next h => exact h
  · next h =>
      rw [List.any_append]
      simp

theorem foldlC_present : ∀ (cs : List String) (s : Warehouse) (c : String),
    c ∈ cs →
    ((cs.foldl insertCurrency s).dim_currency.any
      fun r => r.currency_code = c) = true := by
  intro cs
  induction cs with
  | nil => intro s c h; cases h
  | cons c' cs ih =>
      intro s c hc
      rcases List.mem_cons.mp hc with rfl | hc'
      · rw [List.foldl_cons]
        obtain ⟨l, hl⟩ := foldlC_extend cs (insertCurrency s c)
        rw [hl, List.any_append, insertCurrency_present]
        rfl
      · rw [List.foldl_cons]
        exact ih _ c hc'

theorem insertDate_present (s : Warehouse) (d : FXDate) :
    ((insertDate s d).dim_date.any fun r => r.full_date = d) = true := by
  unfold insertDate
  split
  · next h => exact h
  · next h =>
      rw [List.any_append]
      simp

theorem foldlD_present : ∀ (ds : List FXDate) (s : Warehouse) (d : FXDate),
    d ∈ ds →
    ((ds.foldl insertDate s).dim_date.any
      fun r => r.full_date = d) = true := by
  intro ds
  induction ds with
  | nil => intro s d h; cases h
  | cons d' ds ih =>
      intro s d hd
      rcases List.mem_cons.mp hd with rfl | hd'
      · rw [List.foldl_cons]
        obtain ⟨l, hl⟩ := foldlD_extend ds (insertDate s d)
        rw [hl, List.any_append, insertDate_present]
        rfl
      · rw [List.foldl_cons]
        exact ih _ d hd'

/-! ## Upserts are no-ops on present keys -/

theorem insertCurrency_noop {s : Warehouse} {c : String}
    (h : (s.dim_currency.any fun r => r.currency_code = c) = true) :
    insertCurrency s c = s := by
  unfold insertCurrency
  rw [if_pos h]

theorem foldlC_noop : ∀ {cs : List String} {s : Warehouse},
    (∀ c ∈ cs, (s.dim_currency.any fun r => r.currency_code = c) = true) →
    cs.foldl insertCurrency s = s := by
  intro cs
  induction cs with
  | nil => intro s _; rfl
  | cons c cs ih =>
      intro s h
      rw [List.foldl_cons, insertCurrency_noop (h c (List.mem_cons_self _ _))]
      exact ih fun c' hc' => h c' (List.mem_cons_of_mem _ hc')

theorem insertDate_noop {s : Warehouse} {d : FXDate}
    (h : (s.dim_date.any fun r => r.full_date = d) = true) :
    insertDate s d = s := by
  unfold insertDate
  rw [if_pos h]

theorem foldlD_noop : ∀ {ds : List FXDate} {s : Warehouse},
    (∀ d ∈ ds, (s.dim_date.any fun r => r.full_date = d) = true) →
    ds.foldl insertDate s = s := by
  intro ds
  induction ds with
  | nil => intro s _; rfl
  | cons d ds ih =>
      intro s h
      rw [List.foldl_cons, insertDate_noop (h d (List.mem_cons_self _ _))]
      exact ih fun d' hd' => h d' (List.mem_cons_of_mem _ hd')

/-! ## Key resolution -/

/-- Key resolution reads only the two dimension tables. -/
theorem resolveKeys_congr {s s' : Warehouse} (r : Row)
    (hd : s.dim_date = s'.dim_date)
    (hc : s.dim_currency = s'.dim_currency) :
    resolveKeys s r = resolveKeys s' r := by
  unfold resolveKeys
  rw [hd, hc]

theorem factKeyPresent_insert {s : Warehouse} {k : ℕ × ℕ × ℕ} {r : Row}
    (h : factKeyPresent s k = true) :
    factKeyPresent (insertFact s r) k = true := by
  obtain ⟨l, hl⟩ := insertFact_extend s r
  unfold factKeyPresent at h ⊢
  rw [hl, List.any_append, h]
  rfl

theorem factKeyPresent_load_fact : ∀ (df : List Row) {s : Warehouse}
    {k : ℕ × ℕ × ℕ}, factKeyPresent s k = true →
    factKeyPresent (load_fact s df) k = true := by
  intro df
  induction df with
  | nil => intro s k h; exact h
  | cons r df ih =>
      intro s k h
      unfold load_fact
      rw [List.foldl_cons]
      exact ih (factKeyPresent_insert h)

/-- After the fact fold, every batch row either fails key resolution or
its resolved key is present in the fact table. -/
theorem load_fact_covers : ∀ (df : List Row) (s : Warehouse), ∀ r ∈ df,
    resolveKeys s r = none ∨
    ∃ k, resolveKeys s r = some k ∧
      factKeyPresent (load_fact s df) k = true := by
  intro df
  induction df with
  | nil => intro s r h; cases h
  | cons r0 df ih =>
      intro s r hr
      have hdims : resolveKeys (insertFact s r0) r = resolveKeys s r :=
        resolveKeys_congr r (insertFact_dim_date s r0)
          (insertFact_dim_currency s r0)
      rcases List.mem_cons.mp hr with rfl | hr'
      · cases hres : resolveKeys s r with
        | none => exact Or.inl rfl
        | some k =>
            refine Or.inr ⟨k, rfl, ?_⟩
            unfold load_fact
            rw [List.foldl_cons]
            have hins : factKeyPresent (insertFact s r) k = true := by
              simp only [insertFact, hres]
              by_cases h : factKeyPresent s k
              · rw [if_pos h]
                exact h
              · rw [if_neg h]
                unfold factKeyPresent
                rw [List.any_append]
                simp
            exact factKeyPresent_load_fact df hins
      · rcases ih (insertFact s r0) r hr' with hnone | ⟨k, hk, hpres⟩
        · rw [hdims] at hnone
          exact Or.inl hnone
        · rw [hdims] at hk
          refine Or.inr ⟨k, hk, ?_⟩
          unfold load_fact
          rw [List.foldl_cons]
          exact hpres

/-- No-op characterizations of the fact insert. -/
theorem insertFact_noop_none {s : Warehouse} {r : Row}
    (h : resolveKeys s r = none) : insertFact s r = s := by
  simp only [insertFact, h]

theorem insertFact_noop_present {s : Warehouse} {r : Row} {k : ℕ × ℕ × ℕ}
    (h : resolveKeys s r = some k) (hp : factKeyPresent s k = true) :
    insertFact s r = s := by
  simp only [insertFact, h]
  rw [if_pos hp]

/-- A batch of per-row no-ops makes the whole fact load a no-op. -/
theorem load_fact_noop : ∀ {df : List Row} {s : Warehouse},
    (∀ r ∈ df, insertFact s r = s) → load_fact s df = s := by
  intro df
  induction df with
  | nil => intro s _; rfl
  | cons r df ih =>
      intro s h
      unfold load_fact
      rw [List.foldl_cons, h r (List.mem_cons_self _ _)]
      exact ih fun r' hr' => h r' (List.mem_cons_of_mem _ hr')

/-- Every local load only appends to the fact table: previously persisted
fact rows survive unchanged, in place. -/
theorem load_fact_append (df : List Row) (s : Warehouse) :
    ∃ l, (load df s).fact = s.fact ++ l := by
  obtain ⟨l, hl⟩ := load_fact_extend df (load_dim_date (load_dim_currency s) df)
  refine ⟨l, ?_⟩
  show (load_fact (load_dim_date (load_dim_currency s) df) df).fact
      = s.fact ++ l
  rw [hl]
  congr 1
  unfold load_dim_date
  rw [foldlD_fact]
  unfold load_dim_currency
  rw [foldlC_fact]

/-! ## Claim C1 -/

/-- C1: re-loading the same triangulated batch into the local sink is a
complete no-op — the second `load` leaves the entire warehouse state
(hence the row counts and row contents of `dim_currency`, `dim_date` and
`fact_fx_rates`) identical — and moreover any later load, whatever its
rate values, only appends to the fact table, so an existing fact row for
a (date, from, to) key is never updated. -/
theorem C1_load_idempotent (df : List Row) (s : Warehouse) :
    load df (load df s) = load df s ∧
    ∀ df' : List Row, ∃ l,
      (load df' (load df s)).fact = (load df s).fact ++ l := by
  constructor
  · show load_fact (load_dim_date (load_dim_currency (ensureSchema
        (load df s))) df) df = load df s
    have hS1c : (load df s).dim_currency
        = (load_dim_currency s).dim_currency := by
      show (load_fact (load_dim_date (load_dim_currency (ensureSchema s)) df)
          df).dim_currency = _
      rw [load_fact_dim_currency]
      unfold load_dim_date
      rw [foldlD_dim_currency]
      rfl
    have hS1d : (load df s).dim_date
        = (load_dim_date (load_dim_currency s) df).dim_date := by
      show (load_fact (load_dim_date (load_dim_currency (ensureSchema s)) df)
          df).dim_date = _
      rw [load_fact_dim_date]
      rfl
    have hA : load_dim_currency (ensureSchema (load df s)) = load df s := by
      refine foldlC_noop fun c hc => ?_
      show ((load df s).dim_currency.any fun r => r.currency_code = c) = true
      rw [hS1c]
      exact foldlC_present CURRENCIES s c hc
    have hB : load_dim_date (load df s) df = load df s := by
      refine foldlD_noop fun d hd => ?_
      show ((load df s).dim_date.any fun r => r.full_date = d) = true
      rw [hS1d]
      exact foldlD_present (uniqueSortedDates df) (load_dim_currency s) d hd
    rw [hA, hB]
    refine load_fact_noop fun r hr => ?_
    have hres : resolveKeys (load df s) r
        = resolveKeys (load_dim_date (load_dim_currency s) df) r := by
      refine resolveKeys_congr r hS1d ?_
      rw [hS1c]
      unfold load_dim_date
      rw [foldlD_dim_currency]
    rcases load_fact_covers df (load_dim_date (load_dim_currency s) df) r hr
      with hnone | ⟨k, hk, hpres⟩
    · exact insertFact_noop_none (by rw [hres]; exact hnone)
    · refine insertFact_noop_present (by rw [hres]; exact hk) ?_
      show factKeyPresent (load df s) k = true
      exact hpres
  · intro df'
    exact load_fact_append df' (load df s)

/-! ## Claim C8 -/

/-- C8: the local load is, by construction, the mandated sequence schema
→ currency dimension → date dimension → facts, and provided every batch
currency is drawn from the configured set, the key-resolving join of the
fact step finds all three dimension keys for every batch row in the
post-dimension state. -/
theorem C8_load_sequencing (df : List Row) (s : Warehouse)
    (hcur : ∀ r ∈ df, r.from_currency ∈ CURRENCIES ∧
      r.to_currency ∈ CURRENCIES) :
    load df s =
      load_fact (load_dim_date (load_dim_currency (ensureSchema s)) df) df ∧
    ∀ r ∈ df, (resolveKeys
      (load_dim_date (load_dim_currency (ensureSchema s)) df) r).isSome
        = true := by
  refine ⟨rfl, ?_⟩
  intro r hr
  have hdmem : r.date ∈ uniqueSortedDates df := by
    unfold uniqueSortedDates
    rw [(List.perm_insertionSort dateLE _).mem_iff, List.mem_dedup]
    exact List.mem_map_of_mem _ hr
  have hdate : ((load_dim_date (load_dim_currency (ensureSchema s))
      df).dim_date.any fun dr => dr.full_date = r.date) = true :=
    foldlD_present _ _ _ hdmem
  have hdimc : (load_dim_date (load_dim_currency (ensureSchema s))
      df).dim_currency = (load_dim_currency (ensureSchema s)).dim_currency := by
    unfold load_dim_date
    rw [foldlD_dim_currency]
  have hfromP : ((load_dim_date (load_dim_currency (ensureSchema s))
      df).dim_currency.any fun cr => cr.currency_code = r.from_currency)
      = true := by
    rw [hdimc]
    exact foldlC_present CURRENCIES (ensureSchema s) _ (hcur r hr).1
  have htoP : ((load_dim_date (load_dim_currency (ensureSchema s))
      df).dim_currency.any fun cr => cr.currency_code = r.to_currency)
      = true := by
    rw [hdimc]
    exact foldlC_present CURRENCIES (ensureSchema s) _ (hcur r hr).2
  obtain ⟨dr, hdr⟩ := Option.isSome_iff_exists.mp
    (List.find?_isSome.mpr (List.any_eq_true.mp hdate))
  obtain ⟨fc, hfc⟩ := Option.isSome_iff_exists.mp
    (List.find?_isSome.mpr (List.any_eq_true.mp hfromP))
  obtain ⟨tc, htc⟩ := Option.isSome_iff_exists.mp
    (List.find?_isSome.mpr (List.any_eq_true.mp htoP))
  simp only [resolveKeys, hdr, hfc, htc]
  rfl

/-- Witness for C8 at a one-row batch against the empty warehouse. -/
theorem C8_witness :
    load [⟨⟨2026, 1, 5⟩, "NOK", "EUR", (1 : ℚ)⟩] emptyWarehouse =
      load_fact (load_dim_date (load_dim_currency (ensureSchema
        emptyWarehouse)) [⟨⟨2026, 1, 5⟩, "NOK", "EUR", (1 : ℚ)⟩])
        [⟨⟨2026, 1, 5⟩, "NOK", "EUR", (1 : ℚ)⟩] ∧
    ∀ r ∈ ([⟨⟨2026, 1, 5⟩, "NOK", "EUR", (1 : ℚ)⟩] : List Row),
      (resolveKeys (load_dim_date (load_dim_currency (ensureSchema
        emptyWarehouse)) [⟨⟨2026, 1, 5⟩, "NOK", "EUR", (1 : ℚ)⟩]) r).isSome
        = true := by
  refine C8_load_sequencing _ _ ?_
  intro r hr
  simp only [List.mem_singleton] at hr
  subst hr
  exact ⟨by decide, by decide⟩

/-! ## Object-storage (azure) lemmas -/

/-- A path not written by a write sequence keeps its old content. -/
theorem applyWrites_not_mem : ∀ {ws : List (BlobPath × Blob)}
    {store : Store} {p : BlobPath}, p ∉ ws.map Prod.fst →
    applyWrites ws store p = store p := by
  intro ws
  induction ws with
  | nil => intro store p _; rfl
  | cons w ws ih =>
      intro store p hp
      rw [List.map_cons, List.mem_cons] at hp
      push_neg at hp
      show applyWrites ws (uploadBlob store w.1 w.2) p = store p
      rw [ih hp.2]
      unfold uploadBlob
      rw [if_neg hp.1]

/-- A path written by a write sequence gets content depending only on the
writes, not on the prior store. -/
theorem applyWrites_mem_congr : ∀ {ws : List (BlobPath × Blob)}
    {s s' : Store} {p : BlobPath}, p ∈ ws.map Prod.fst →
    applyWrites ws s p = applyWrites ws s' p := by
  intro ws
  induction ws with
  | nil => intro s s' p hp; cases hp
  | cons w ws ih =>
      intro s s' p hp
      by_cases hmem : p ∈ ws.map Prod.fst
      · exact ih hmem
      · rw [List.map_cons, List.mem_cons] at hp
        rcases hp with rfl | hp'
        · show applyWrites ws (uploadBlob s w.1 w.2) w.1
              = applyWrites ws (uploadBlob s' w.1 w.2) w.1
          rw [applyWrites_not_mem hmem, applyWrites_not_mem hmem]
          unfold uploadBlob
          rw [if_pos rfl, if_pos rfl]
        · exact absurd hp' hmem
  
/-- Deduplicating a nonempty constant list gives the singleton. -/
theorem dedup_const {α : Type} [DecidableEq α] :
    ∀ {l : List α} {k : α}, l ≠ [] → (∀ x ∈ l, x = k) → l.dedup = [k] := by
  intro l
  induction l with
  | nil => intro k h; exact absurd rfl h
  | cons a l ih =>
      intro k _ hall
      have ha : a = k := hall a (List.mem_cons_self _ _)
      cases l with
      | nil => rw [ha]; rfl
      | cons b l' =>
          have hmem : a ∈ b :: l' := by
            rw [ha, hall b (List.mem_cons_of_mem _ (List.mem_cons_self _ _))]
            exact List.mem_cons_self _ _
          rw [List.dedup_cons_of_mem hmem]
          exact ih (by simp) fun x hx => hall x (List.mem_cons_of_mem _ hx)

/-- Fact rows built for a single-month batch all carry that (year, month). -/
theorem buildFact_const {df : List Row} {y m : ℕ}
    (hym : ∀ r ∈ df, r.date.year = y ∧ r.date.month = m) :
    ∀ fr ∈ buildFact df, (fr.year, fr.month) = (y, m) := by
  intro fr hfr
  obtain ⟨r, hr, rfl⟩ := List.mem_map.mp hfr
  have := hym r hr
  simp [this.1, this.2]

/-! ## Claim C7 -/

/-- C7: writing a fact batch confined to one (year, month) into the
object-storage sink touches exactly that month's partition blob — every
other (year, month) partition keeps its previous content, the addressed
partition becomes exactly the built fact file — and re-running the same
load is the identity on the resulting store (idempotence by
replacement). -/
theorem C7_partition_overwrite (df : List Row) (store : Store) (y m : ℕ)
    (hym : ∀ r ∈ df, r.date.year = y ∧ r.date.month = m) (hne : df ≠ []) :
    (∀ y' m', (y', m') ≠ (y, m) →
       load_azure df store (BlobPath.factPart y' m')
         = store (BlobPath.factPart y' m')) ∧
    load_azure df store (BlobPath.factPart y m)
      = some (Blob.factFile (buildFact df)) ∧
    load_azure df (load_azure df store) = load_azure df store := by
  have hbf : ∀ fr ∈ buildFact df, (fr.year, fr.month) = (y, m) :=
    buildFact_const hym
  have hbfne : buildFact df ≠ [] := by
    cases df with
    | nil => exact absurd rfl hne
    | cons r df' => exact List.cons_ne_nil _ _
  have hkeys : partitionKeys (buildFact df) = [(y, m)] := by
    unfold partitionKeys
    refine dedup_const ?_ ?_
    · cases hb : buildFact df with
      | nil => exact absurd hb hbfne
      | cons fr l => exact List.cons_ne_nil _ _
    · intro x hx
      obtain ⟨fr, hfr, rfl⟩ := List.mem_map.mp hx
      exact hbf fr hfr
  have hfil : (buildFact df).filter
      (fun fr => (fr.year, fr.month) = ((y, m) : ℕ × ℕ)) = buildFact df :=
    List.filter_eq_self.mpr fun fr hfr => by simp [hbf fr hfr]
  have hwrites : azureWrites df =
      [(BlobPath.dimCurrencyPath, Blob.currencyDim buildDimCurrency),
       (BlobPath.dimDatePath, Blob.dateDim (buildDimDate df)),
       (BlobPath.factPart y m, Blob.factFile (buildFact df))] := by
    unfold azureWrites
    rw [hkeys]
    simp only [List.map_cons, List.map_nil]
    rw [hfil]
  refine ⟨?_, ?_, ?_⟩
  · intro y' m' hne'
    show applyWrites (azureWrites df) store _ = _
    rw [hwrites]
    refine applyWrites_not_mem ?_
    intro hcon
    simp only [List.map_cons, List.map_nil] at hcon
    rcases List.mem_cons.mp hcon with h | hcon2
    · cases h
    rcases List.mem_cons.mp hcon2 with h | hcon3
    · cases h
    rcases List.mem_cons.mp hcon3 with h | hcon4
    · apply hne'
      cases h
      rfl
    · cases hcon4
  · show applyWrites (azureWrites df) store _ = _
    rw [hwrites]
    show applyWrites _ (uploadBlob store _ _) _ = _
    show applyWrites _ (uploadBlob (uploadBlob store _ _) _ _) _ = _
    show uploadBlob (uploadBlob (uploadBlob store _ _) _ _)
      (BlobPath.factPart y m) (Blob.factFile (buildFact df))
      (BlobPath.factPart y m) = _
    unfold uploadBlob
    rw [if_pos rfl]
  · funext p
    by_cases hp : p ∈ (azureWrites df).map Prod.fst
    · exact applyWrites_mem_congr hp
    · show applyWrites (azureWrites df) (load_azure df store) p = _
      rw [applyWrites_not_mem hp]

/-- Witness for C7: a one-row January 2026 batch against the empty
store. -/
theorem C7_witness :
    (∀ y' m', (y', m') ≠ ((2026 : ℕ), (1 : ℕ)) →
       load_azure [⟨⟨2026, 1, 5⟩, "NOK", "EUR", (1 : ℚ)⟩] (fun _ => none)
           (BlobPath.factPart y' m')
         = (fun _ => (none : Option Blob)) (BlobPath.factPart y' m')) ∧
    load_azure [⟨⟨2026, 1, 5⟩, "NOK", "EUR", (1 : ℚ)⟩] (fun _ => none)
        (BlobPath.factPart 2026 1)
      = some (Blob.factFile
          (buildFact [⟨⟨2026, 1, 5⟩, "NOK", "EUR", (1 : ℚ)⟩])) ∧
    load_azure [⟨⟨2026, 1, 5⟩, "NOK", "EUR", (1 : ℚ)⟩]
        (load_azure [⟨⟨2026, 1, 5⟩, "NOK", "EUR", (1 : ℚ)⟩] (fun _ => none))
      = load_azure [⟨⟨2026, 1, 5⟩, "NOK", "EUR", (1 : ℚ)⟩] (fun _ => none) := by
  refine C7_partition_overwrite _ _ 2026 1 ?_ (List.cons_ne_nil _ _)
  intro r hr
  simp only [List.mem_singleton] at hr
  subst hr
  exact ⟨rfl, rfl⟩

/-! ## Claim C4 -/

/-- C4: the claim fails on the code. Both sinks derive year, month,
quarter and day-of-month identically from every date, but the weekend
flags differ: the local sink marks Python `weekday() >= 5`
(Saturday/Sunday), while the azure sink evaluates `>= 5` on the polars
ISO weekday (Monday = 1), which is also true on Fridays. On Friday
2026-01-02 (Python weekday 4) the local sink writes `is_weekend = false`
and the azure sink writes `is_weekend = true`. -/
theorem C4_dim_date_attrs :
    (∀ s d, (insertDate s d).dim_date = s.dim_date ∨
       (insertDate s d).dim_date = s.dim_date ++
         [⟨s.seq_date, d, (localDateAttrs d).1, (localDateAttrs d).2.1,
           (localDateAttrs d).2.2.1, (localDateAttrs d).2.2.2.1,
           (localDateAttrs d).2.2.2.2⟩]) ∧
    (∀ df, buildDimDate df = (uniqueSortedDates df).map fun d =>
       ⟨d, (azureDateAttrs d).1, (azureDateAttrs d).2.1,
        (azureDateAttrs d).2.2.1, (azureDateAttrs d).2.2.2.1,
        (azureDateAttrs d).2.2.2.2⟩) ∧
    (∀ d, (localDateAttrs d).1 = (azureDateAttrs d).1 ∧
       (localDateAttrs d).2.1 = (azureDateAttrs d).2.1 ∧
       (localDateAttrs d).2.2.1 = (azureDateAttrs d).2.2.1 ∧
       (localDateAttrs d).2.2.2.1 = (azureDateAttrs d).2.2.2.1) ∧
    pyWeekday ⟨2026, 1, 2⟩ = 4 ∧
    (localDateAttrs ⟨2026, 1, 2⟩).2.2.2.2 = false ∧
    (azureDateAttrs ⟨2026, 1, 2⟩).2.2.2.2 = true := by
  refine ⟨?_, fun df => rfl, fun d => ⟨rfl, rfl, rfl, rfl⟩,
    by decide, by decide, by decide⟩
  intro s d
  unfold insertDate
  split
  · exact Or.inl rfl
  · exact Or.inr rfl

/-! ## Claim C6 -/

/-- C6: when exactly one non-base currency is absent from a date's rate
table (all other currencies present), the run still succeeds; no emitted
row of that date involves the absent currency; that date's rows are
exactly (as a multiset, and both sides are sorted) the rows the transform
would emit had the absent currency never been in the currency set; and
the date yields fewer than 7×6 = 42 rows. -/
theorem C6_missing_currency
    {raw : RawRates} {d : FXDate} {t : List (String × ℚ)} {c : String}
    (hnodup : (raw.map Prod.fst).Nodup)
    (hmem : (d, t) ∈ raw)
    (hpos : ∀ p ∈ raw, ∀ e ∈ p.2, (0 : ℚ) < e.2)
    (hc : c ∈ CURRENCIES) (hcE : c ≠ BASE_CURRENCY)
    (habs : t.lookup c = none)
    (hothers : ∀ x ∈ CURRENCIES, x ≠ c → (fullLookup t x).isSome = true) :
    ∃ out out',
      compute_cross_pairs raw = .ok out ∧
      computeWith (CURRENCIES.erase c) raw = .ok out' ∧
      (∀ r ∈ out, r.date = d → r.from_currency ≠ c ∧ r.to_currency ≠ c) ∧
      (out.filter fun r => r.date = d).Perm
        (out'.filter fun r => r.date = d) ∧
      (out.filter fun r => r.date = d).length < 42 := by
  have hflc : fullLookup t c = none := fullLookup_none habs hcE
  have hposd : ∀ e ∈ t, (0 : ℚ) < e.2 := hpos (d, t) hmem
  obtain ⟨all, hall⟩ := @recordsFor_pos_ok CURRENCIES raw hpos
  obtain ⟨all', hall'⟩ := @recordsFor_pos_ok (CURRENCIES.erase c) raw hpos
  obtain ⟨rs, hrs⟩ := @dateRecs_ok CURRENCIES d t hposd
  have hrse : dateRecs (CURRENCIES.erase c) d t = .ok rs := by
    rw [dateRecs_erase (by decide) hflc]
    exact hrs
  have hpair : ∃ A B : String, A ∈ CURRENCIES ∧ B ∈ CURRENCIES ∧ B ≠ A ∧
      A ≠ c ∧ B ≠ c := by
    fin_cases hc
    · exact ⟨"EUR", "SEK", by decide, by decide, by decide, by decide,
        by decide⟩
    · exact absurd rfl hcE
    · exact ⟨"NOK", "EUR", by decide, by decide, by decide, by decide,
        by decide⟩
    · exact ⟨"NOK", "EUR", by decide, by decide, by decide, by decide,
        by decide⟩
    · exact ⟨"NOK", "EUR", by decide, by decide, by decide, by decide,
        by decide⟩
    · exact ⟨"NOK", "EUR", by decide, by decide, by decide, by decide,
        by decide⟩
    · exact ⟨"NOK", "EUR", by decide, by decide, by decide, by decide,
        by decide⟩
  obtain ⟨A, B, hA, hB, hBA, hAc, hBc⟩ := hpair
  obtain ⟨a, ha⟩ := Option.isSome_iff_exists.mp (hothers A hA hAc)
  obtain ⟨b, hb⟩ := Option.isSome_iff_exists.mp (hothers B hB hBc)
  have haz : a ≠ 0 := ne_of_gt (fullLookup_pos hposd ha)
  have hrow : (⟨d, A, B, round6 (b / a)⟩ : Row) ∈ rs :=
    dateRecs_mem hA hB hBA ha hb haz hrs
  have hrow_all : (⟨d, A, B, round6 (b / a)⟩ : Row) ∈ all :=
    recordsFor_mem hmem hrs hall _ hrow
  have hrow_all' : (⟨d, A, B, round6 (b / a)⟩ : Row) ∈ all' :=
    recordsFor_mem hmem hrse hall' _ hrow
  have hneall : all ≠ [] := by
    intro hcon
    rw [hcon] at hrow_all
    cases hrow_all
  have hneall' : all' ≠ [] := by
    intro hcon
    rw [hcon] at hrow_all'
    cases hrow_all'
  have hfd : all.filter (fun r => r.date = d) = rs :=
    recordsFor_filter hnodup hmem hrs hall
  have hfd' : all'.filter (fun r => r.date = d) = rs :=
    recordsFor_filter hnodup hmem hrse hall'
  refine ⟨sortRows all, sortRows all', computeWith_ok hall hneall,
    computeWith_ok hall' hneall', ?_, ?_, ?_⟩
  · intro r hr hrd
    have hr_all : r ∈ all := mem_sortRows.mp hr
    have hr_rs : r ∈ rs := by
      rw [← hfd]
      rw [List.mem_filter]
      exact ⟨hr_all, by simp [hrd]⟩
    obtain ⟨_, _, _, _, ra, rb, hra, hrb, _, _⟩ := dateRecs_sound hrs hr_rs
    constructor
    · intro hcon
      rw [hcon, hflc] at hra
      cases hra
    · intro hcon
      rw [hcon, hflc] at hrb
      cases hrb
  · have e1 := sortRows_filter_perm all (fun r => r.date = d)
    have e3 := sortRows_filter_perm all' (fun r => r.date = d)
    rw [hfd] at e1
    rw [hfd'] at e3
    exact e1.trans e3.symm
  · have e1 := sortRows_filter_perm all (fun r => r.date = d)
    rw [hfd] at e1
    rw [e1.length_eq]
    have hskip : buildPair d t (c, BASE_CURRENCY) = .ok none :=
      buildPair_skip (Or.inl hflc)
    have hcb : (c, BASE_CURRENCY) ∈ orderedPairs CURRENCIES :=
      mem_orderedPairs.mpr ⟨hc, by decide, Ne.symm hcE⟩
    have := collectE_length_lt (buildPair d t) hcb hskip hrs
    have h42 : (orderedPairs CURRENCIES).length = 42 := by decide
    rw [h42] at this
    exact this

/-- Witness for C6: the fixture date with NOK absent from the supplied
rates. -/
theorem C6_witness :
    ∃ out out',
      compute_cross_pairs
          [(⟨2026, 2, 17⟩,
            [("SEK", (1123 : ℚ)/100), ("PLN", (421 : ℚ)/100),
             ("RON", (498 : ℚ)/100), ("DKK", (746 : ℚ)/100),
             ("CZK", (2510 : ℚ)/100)])] = .ok out ∧
      computeWith (CURRENCIES.erase "NOK")
          [(⟨2026, 2, 17⟩,
            [("SEK", (1123 : ℚ)/100), ("PLN", (421 : ℚ)/100),
             ("RON", (498 : ℚ)/100), ("DKK", (746 : ℚ)/100),
             ("CZK", (2510 : ℚ)/100)])] = .ok out' ∧
      (∀ r ∈ out, r.date = ⟨2026, 2, 17⟩ →
        r.from_currency ≠ "NOK" ∧ r.to_currency ≠ "NOK") ∧
      (out.filter fun r => r.date = (⟨2026, 2, 17⟩ : FXDate)).Perm
        (out'.filter fun r => r.date = (⟨2026, 2, 17⟩ : FXDate)) ∧
      (out.filter fun r => r.date = (⟨2026, 2, 17⟩ : FXDate)).length < 42 := by
  refine C6_missing_currency (by decide) (List.Mem.head _) ?_ (by decide)
    (by decide) rfl (by decide)
  intro p hp e he
  simp only [List.mem_singleton] at hp
  subst hp
  simp only [List.mem_cons, List.not_mem_nil, or_false] at he
  rcases he with rfl | rfl | rfl | rfl | rfl <;> norm_num

end FX
